import Mathlib

/-!
The solver `fastauction`: a bitmask dynamic programme for budget-constrained auctions.

A shallow embedding of `src/fastauction.cpp` and theorems about it.

Modelling conventions.

* `std::uint32_t` values are natural numbers below `2 ^ 32`; every unsigned
  operation that can leave that range (`WORD_MASK << i`, `m - 1`, `~m`) is
  reduced modulo `2 ^ 32` explicitly.
* `int` values (bids, budgets, revenues) are integers, and the two `int` sums
  the source forms, `r += b[j]` in `revenue` and `S[m] + Sp[~m & u]` in `merge`,
  are reduced into the 32-bit range `[-2 ^ 31, 2 ^ 31 - 1]` by `wrap32`, as the
  two's complement machine delivers them.  The counts `bidders` and `items` are
  natural numbers.
* The functions whose names end in `Z` are the same computation with both sums
  taken over unbounded integers, and those whose names end in `32` the same
  computation where a sum outside the `int` range yields `none`; they serve to
  state when no sum overflows.
* A `std::vector<int>` is a `List Int`; reading or writing outside the vector
  is undefined in C++ and yields `none` here.  A pointer `b.data() + off` is
  the list `bids.drop off`, so `b[j]` is defined exactly when `off + j` lies
  inside the vector.
* Loops whose termination is not structural carry a fuel argument; running out
  of fuel yields `none`, and the theorems show that the fuel supplied is enough.
-/

namespace fastauction

/-- The in-memory auction instance of `fastauction.h`: bidder count, item count,
one budget per bidder, and the flattened bid matrix. -/
structure Instance where
  bidders : Nat
  items : Nat
  budget : List Int
  bids : List Int
  deriving Repr, DecidableEq

/-- The largest 32-bit `int`. -/
def INT_MAX : Int := 2 ^ 31 - 1

/-- The smallest 32-bit `int`. -/
def INT_MIN : Int := -(2 ^ 31)

/-- The value of an `int` sum in 32 bits: the exact sum reduced modulo `2 ^ 32`
into `[-2 ^ 31, 2 ^ 31 - 1]`. -/
def wrap32 (x : Int) : Int := (x + 2 ^ 31) % 2 ^ 32 - 2 ^ 31

/-- The constant `WORD_MASK = 0xffffffff` of `nextSetBit`. -/
def WORD_MASK : Nat := 0xffffffff

/-- Count of trailing zero bits, by halving; `fuel` bounds the word width. -/
def ctzAux : Nat → Nat → Nat
  | 0, _ => 0
  | fuel + 1, w => if w % 2 = 1 then 0 else ctzAux fuel (w / 2) + 1

/-- The builtin `__builtin_ctz` on a 32-bit word (only called on non-zero words). -/
def ctz (w : Nat) : Nat := ctzAux 32 w

/-- The function `nextSetBit(s, i)`: position of the lowest set bit of `s` at or
after position `i`, or `-1`.  A shift count of 32 or more is undefined for a
32-bit operand, hence `none`. -/
def nextSetBit (s i : Nat) : Option Int :=
  if 32 ≤ i then none
  else
    let word := s &&& ((WORD_MASK <<< i) % 2 ^ 32)
    if word ≠ 0 then some (ctz word : Nat) else some (-1)

/-- The `for` loop of `revenue`: while `j >= 0`, add `b[j]` to the `int` `r` and
move to the next set bit after `j`. -/
def revenueLoop (b : List Int) (u : Nat) : Nat → Int → Int → Option Int
  | 0, _, _ => none
  | fuel + 1, j, r =>
    if 0 ≤ j then
      match b[j.toNat]? with
      | none => none
      | some x =>
        match nextSetBit u (j.toNat + 1) with
        | none => none
        | some j' => revenueLoop b u fuel j' (wrap32 (r + x))
    else some r

/-- The function `revenue(d, b, u)`: the bids at the set bits of `u`, summed and
capped at `d`.  At most 32 bits can be visited, so fuel 33 covers the loop. -/
def revenue (d : Int) (b : List Int) (u : Nat) : Option Int :=
  match nextSetBit u 0 with
  | none => none
  | some j =>
    match revenueLoop b u 33 j 0 with
    | none => none
    | some r => some (min r d)

/-- A checked vector store `S[u] = x`. -/
def store (S : List Int) (u : Nat) (x : Int) : Option (List Int) :=
  if u < S.length then some (S.set u x) else none

/-- The body of the loop of `generate`: `S[u] = revenue(d, b, u)`. -/
def generateStep (d : Int) (b : List Int) (S : List Int) (u : Nat) : Option (List Int) :=
  match revenue d b u with
  | none => none
  | some x => store S u x

/-- The function `generate(S, n, d, b)`: for `u = 1 .. n - 1` store
`revenue(d, b, u)` at `S[u]`. -/
def generate (S : List Int) (n : Nat) (d : Int) (b : List Int) : Option (List Int) :=
  (List.range' 1 (n - 1)).foldlM (generateStep d b) S

/-- The update `m = (m - 1) & u` on 32-bit unsigned words. -/
def subStep (u m : Nat) : Nat := ((m + (2 ^ 32 - 1)) % 2 ^ 32) &&& u

/-- The index `~m & u` on 32-bit unsigned words. -/
def restOf (u m : Nat) : Nat := (2 ^ 32 - 1 - m) &&& u

/-- The `do ... while (m != u)` loop of `merge`, with the `int` sum
`S[m] + Sp[~m & u]`. -/
def mergeLoop (S Sp : List Int) (u : Nat) : Nat → Nat → Int → Option Int
  | 0, _, _ => none
  | fuel + 1, m, r =>
    match S[m]?, Sp[restOf u m]? with
    | some a, some c =>
      if subStep u m = u then some (max r (wrap32 (a + c)))
      else mergeLoop S Sp u fuel (subStep u m) (max r (wrap32 (a + c)))
    | _, _ => none

/-- The value `merge` computes for `Sr[u]`: start from `r = S[u]` and `m = u`,
run the submask loop.  The submask strictly decreases until it reaches zero, so
fuel `u + 1` covers the loop. -/
def mergeEntry (S Sp : List Int) (u : Nat) : Option Int :=
  match S[u]? with
  | none => none
  | some r => mergeLoop S Sp u (u + 1) u r

/-- The body of the outer loop of `merge`: `Sr[u] = r`. -/
def mergeStep (S Sp : List Int) (Sr : List Int) (u : Nat) : Option (List Int) :=
  match mergeEntry S Sp u with
  | none => none
  | some r => store Sr u r

/-- The function `merge(Sr, n, S, Sp)`: for `u = 1 .. n - 1` write the best
split of `u` between `S` and `Sp` to `Sr[u]`. -/
def merge (Sr : List Int) (n : Nat) (S Sp : List Int) : Option (List Int) :=
  (List.range' 1 (n - 1)).foldlM (mergeStep S Sp) Sr

/-- The three buffers of `solve_revenue`. -/
structure Buffers where
  S : List Int
  Sp : List Int
  Sr : List Int
  deriving Repr, DecidableEq

/-- The pointer `b.data() + i * n` handed to `generate` for bidder `i`. -/
def bidRow (inst : Instance) (i : Nat) : List Int :=
  inst.bids.drop (i * inst.bidders)

/-- One round of the fold of `solve_revenue` for bidder `i`: generate into `Sp`,
merge into `Sr`, swap `S` and `Sr`. -/
def foldStep (inst : Instance) (B : Buffers) (i : Nat) : Option Buffers :=
  match inst.budget[i]? with
  | none => none
  | some d =>
    match generate B.Sp inst.bidders d (bidRow inst i) with
    | none => none
    | some Sp =>
      match merge B.Sr inst.bidders B.S Sp with
      | none => none
      | some Sr => some ⟨Sr, Sp, B.S⟩

/-- The function `solve_revenue`.  The table size `1 << k` is an `int`, which
cannot hold `2 ^ 31`, so `k` of 31 or more yields `none`; so does a bidder
count of zero, whose result index `n - 1` is outside every vector. -/
def solve_revenue (inst : Instance) : Option Int :=
  if 31 ≤ inst.items then none
  else
    let zero := List.replicate (2 ^ inst.items) (0 : Int)
    match inst.budget[0]? with
    | none => none
    | some d0 =>
      match generate zero inst.bidders d0 (bidRow inst 0) with
      | none => none
      | some S =>
        match (List.range' 1 (inst.bidders - 1)).foldlM (foldStep inst) ⟨S, zero, zero⟩ with
        | none => none
        | some B => if inst.bidders = 0 then none else B.S[inst.bidders - 1]?

/-! ## The states of the fold -/

/-- The buffers of `solve_revenue` when its `for` loop is entered: `S` holds the
table of bidder 0, `Sp` and `Sr` are still zero-initialised. -/
def initBuffers (inst : Instance) : Option Buffers :=
  if 31 ≤ inst.items then none
  else
    match inst.budget[0]? with
    | none => none
    | some d0 =>
      match generate (List.replicate (2 ^ inst.items) 0) inst.bidders d0 (bidRow inst 0) with
      | none => none
      | some S =>
        some ⟨S, List.replicate (2 ^ inst.items) 0, List.replicate (2 ^ inst.items) 0⟩

/-- The buffers of `solve_revenue` after the first `t` rounds of its `for` loop,
that is after the bidders `1 .. t` are merged in. -/
def runRounds (inst : Instance) (t : Nat) : Option Buffers :=
  match initBuffers inst with
  | none => none
  | some B0 => (List.range' 1 t).foldlM (foldStep inst) B0

/-! ## Instrumented loops -/

/-- The body of the `do ... while` loop of `merge` at submask `m`:
`r = std::max(r, S[m] + Sp[~m & u])`. -/
def mergeBody (S Sp : List Int) (u : Nat) (r : Int) (m : Nat) : Option Int :=
  match S[m]?, Sp[restOf u m]? with
  | some a, some c => some (max r (wrap32 (a + c)))
  | _, _ => none

/-- The values of `m` at which the body of the `do ... while (m != u)` loop of
`merge` runs, in order: the control flow of `mergeLoop` without the table reads. -/
def submaskLoop (u : Nat) : Nat → Nat → Option (List Nat)
  | 0, _ => none
  | fuel + 1, m =>
    if subStep u m = u then some [m]
    else
      match submaskLoop u fuel (subStep u m) with
      | none => none
      | some l => some (m :: l)

/-- The body of the `for` loop of `revenue` at bit position `j`: `r += b[j]`. -/
def revenueBody (b : List Int) (r : Int) (j : Nat) : Option Int :=
  match b[j]? with
  | none => none
  | some x => some (wrap32 (r + x))

/-- The bit positions `j` at which the body of the `for` loop of `revenue` runs,
in order: the control flow of `revenueLoop` without the reads of `b`. -/
def setBitLoop (u : Nat) : Nat → Int → Option (List Nat)
  | 0, _ => none
  | fuel + 1, j =>
    if 0 ≤ j then
      match nextSetBit u (j.toNat + 1) with
      | none => none
      | some j' =>
        match setBitLoop u fuel j' with
        | none => none
        | some l => some (j.toNat :: l)
    else some []

/-! ## The computation over unbounded integers

The same functions with both `int` sums taken exactly. -/

/-- The loop of `revenue` with `r += b[j]` over unbounded integers. -/
def revenueLoopZ (b : List Int) (u : Nat) : Nat → Int → Int → Option Int
  | 0, _, _ => none
  | fuel + 1, j, r =>
    if 0 ≤ j then
      match b[j.toNat]? with
      | none => none
      | some x =>
        match nextSetBit u (j.toNat + 1) with
        | none => none
        | some j' => revenueLoopZ b u fuel j' (r + x)
    else some r

/-- The function `revenue` over unbounded integers. -/
def revenueZ (d : Int) (b : List Int) (u : Nat) : Option Int :=
  match nextSetBit u 0 with
  | none => none
  | some j =>
    match revenueLoopZ b u 33 j 0 with
    | none => none
    | some r => some (min r d)

/-- The body of the loop of `generate` over unbounded integers. -/
def generateStepZ (d : Int) (b : List Int) (S : List Int) (u : Nat) : Option (List Int) :=
  match revenueZ d b u with
  | none => none
  | some x => store S u x

/-- The function `generate` over unbounded integers. -/
def generateZ (S : List Int) (n : Nat) (d : Int) (b : List Int) : Option (List Int) :=
  (List.range' 1 (n - 1)).foldlM (generateStepZ d b) S

/-- The `do ... while` loop of `merge` with `S[m] + Sp[~m & u]` over unbounded
integers. -/
def mergeLoopZ (S Sp : List Int) (u : Nat) : Nat → Nat → Int → Option Int
  | 0, _, _ => none
  | fuel + 1, m, r =>
    match S[m]?, Sp[restOf u m]? with
    | some a, some c =>
      if subStep u m = u then some (max r (a + c))
      else mergeLoopZ S Sp u fuel (subStep u m) (max r (a + c))
    | _, _ => none

/-- The value `merge` computes for `Sr[u]` over unbounded integers. -/
def mergeEntryZ (S Sp : List Int) (u : Nat) : Option Int :=
  match S[u]? with
  | none => none
  | some r => mergeLoopZ S Sp u (u + 1) u r

/-- The body of the outer loop of `merge` over unbounded integers. -/
def mergeStepZ (S Sp : List Int) (Sr : List Int) (u : Nat) : Option (List Int) :=
  match mergeEntryZ S Sp u with
  | none => none
  | some r => store Sr u r

/-- The function `merge` over unbounded integers. -/
def mergeZ (Sr : List Int) (n : Nat) (S Sp : List Int) : Option (List Int) :=
  (List.range' 1 (n - 1)).foldlM (mergeStepZ S Sp) Sr

/-- One round of the fold of `solve_revenue` over unbounded integers. -/
def foldStepZ (inst : Instance) (B : Buffers) (i : Nat) : Option Buffers :=
  match inst.budget[i]? with
  | none => none
  | some d =>
    match generateZ B.Sp inst.bidders d (bidRow inst i) with
    | none => none
    | some Sp =>
      match mergeZ B.Sr inst.bidders B.S Sp with
      | none => none
      | some Sr => some ⟨Sr, Sp, B.S⟩

/-- The function `solve_revenue` over unbounded integers. -/
def solve_revenueZ (inst : Instance) : Option Int :=
  if 31 ≤ inst.items then none
  else
    let zero := List.replicate (2 ^ inst.items) (0 : Int)
    match inst.budget[0]? with
    | none => none
    | some d0 =>
      match generateZ zero inst.bidders d0 (bidRow inst 0) with
      | none => none
      | some S =>
        match (List.range' 1 (inst.bidders - 1)).foldlM (foldStepZ inst) ⟨S, zero, zero⟩ with
        | none => none
        | some B => if inst.bidders = 0 then none else B.S[inst.bidders - 1]?

/-! ## The computation with checked 32-bit sums

The same functions where a sum outside `[-2 ^ 31, 2 ^ 31 - 1]` yields `none`; a
run that returns therefore formed no sum outside that range. -/

/-- The sum of two 32-bit `int`s, when it is inside the `int` range. -/
def add32 (a c : Int) : Option Int :=
  if INT_MIN ≤ a + c ∧ a + c ≤ INT_MAX then some (a + c) else none

/-- The loop of `revenue` with `r += b[j]` checked. -/
def revenueLoop32 (b : List Int) (u : Nat) : Nat → Int → Int → Option Int
  | 0, _, _ => none
  | fuel + 1, j, r =>
    if 0 ≤ j then
      match b[j.toNat]? with
      | none => none
      | some x =>
        match nextSetBit u (j.toNat + 1) with
        | none => none
        | some j' =>
          match add32 r x with
          | none => none
          | some r' => revenueLoop32 b u fuel j' r'
    else some r

/-- The function `revenue` with checked sums. -/
def revenue32 (d : Int) (b : List Int) (u : Nat) : Option Int :=
  match nextSetBit u 0 with
  | none => none
  | some j =>
    match revenueLoop32 b u 33 j 0 with
    | none => none
    | some r => some (min r d)

/-- The body of the loop of `generate` with checked sums. -/
def generateStep32 (d : Int) (b : List Int) (S : List Int) (u : Nat) : Option (List Int) :=
  match revenue32 d b u with
  | none => none
  | some x => store S u x

/-- The function `generate` with checked sums. -/
def generate32 (S : List Int) (n : Nat) (d : Int) (b : List Int) : Option (List Int) :=
  (List.range' 1 (n - 1)).foldlM (generateStep32 d b) S

/-- The `do ... while` loop of `merge` with `S[m] + Sp[~m & u]` checked. -/
def mergeLoop32 (S Sp : List Int) (u : Nat) : Nat → Nat → Int → Option Int
  | 0, _, _ => none
  | fuel + 1, m, r =>
    match S[m]?, Sp[restOf u m]? with
    | some a, some c =>
      match add32 a c with
      | none => none
      | some s =>
        if subStep u m = u then some (max r s)
        else mergeLoop32 S Sp u fuel (subStep u m) (max r s)
    | _, _ => none

/-- The value `merge` computes for `Sr[u]` with checked sums. -/
def mergeEntry32 (S Sp : List Int) (u : Nat) : Option Int :=
  match S[u]? with
  | none => none
  | some r => mergeLoop32 S Sp u (u + 1) u r

/-- The body of the outer loop of `merge` with checked sums. -/
def mergeStep32 (S Sp : List Int) (Sr : List Int) (u : Nat) : Option (List Int) :=
  match mergeEntry32 S Sp u with
  | none => none
  | some r => store Sr u r

/-- The function `merge` with checked sums. -/
def merge32 (Sr : List Int) (n : Nat) (S Sp : List Int) : Option (List Int) :=
  (List.range' 1 (n - 1)).foldlM (mergeStep32 S Sp) Sr

/-- One round of the fold of `solve_revenue` with checked sums. -/
def foldStep32 (inst : Instance) (B : Buffers) (i : Nat) : Option Buffers :=
  match inst.budget[i]? with
  | none => none
  | some d =>
    match generate32 B.Sp inst.bidders d (bidRow inst i) with
    | none => none
    | some Sp =>
      match merge32 B.Sr inst.bidders B.S Sp with
      | none => none
      | some Sr => some ⟨Sr, Sp, B.S⟩

/-- The function `solve_revenue` with checked sums. -/
def solve_revenue32 (inst : Instance) : Option Int :=
  if 31 ≤ inst.items then none
  else
    let zero := List.replicate (2 ^ inst.items) (0 : Int)
    match inst.budget[0]? with
    | none => none
    | some d0 =>
      match generate32 zero inst.bidders d0 (bidRow inst 0) with
      | none => none
      | some S =>
        match (List.range' 1 (inst.bidders - 1)).foldlM (foldStep32 inst) ⟨S, zero, zero⟩ with
        | none => none
        | some B => if inst.bidders = 0 then none else B.S[inst.bidders - 1]?

/-! ## Subsets, sums and invariants -/

/-- The submask relation on bit strings: every bit of `m` is also set in `u`. -/
def Submask (m u : Nat) : Prop := m &&& u = m

instance (m u : Nat) : Decidable (Submask m u) := by unfold Submask; infer_instance

/-- The exact revenue of the split of `u` that reads the first table at `m` and
the second table at `~m & u`. -/
def splitValue (S Sp : List Int) (u m : Nat) : Int :=
  S.getD m 0 + Sp.getD (restOf u m) 0

/-- The revenue of the same split as the 32-bit sum delivers it. -/
def splitValue32 (S Sp : List Int) (u m : Nat) : Int :=
  wrap32 (S.getD m 0 + Sp.getD (restOf u m) 0)

/-- The value `v` is the maximum of the split revenues over all submasks of `u`. -/
def IsMaxSplit (S Sp : List Int) (u : Nat) (v : Int) : Prop :=
  (∃ m, Submask m u ∧ v = splitValue S Sp u m) ∧ ∀ m, Submask m u → splitValue S Sp u m ≤ v

/-- The sum of `b[j]` over the positions `j` in `[lo, lo + len)` whose bit is set in `u`. -/
def bidSumFrom (b : List Int) (u lo len : Nat) : Int :=
  (((List.range' lo len).filter (fun j => u.testBit j)).map (fun j => b.getD j 0)).sum

/-- The sum of `b[j]` over exactly the bit positions `j < k` that are set in `u`. -/
def bidSum (k : Nat) (b : List Int) (u : Nat) : Int :=
  (((List.range k).filter (fun j => u.testBit j)).map (fun j => b.getD j 0)).sum

/-- The number of positions `j < k` whose bit is set in `u`. -/
def bitCount (k u : Nat) : Nat := ((List.range k).filter (fun j => u.testBit j)).length

/-- The number of set bits of a 32-bit word. -/
def popcount (u : Nat) : Nat := bitCount 32 u

/-- The submasks of `u`, as a finite set. -/
def submasks (u : Nat) : Finset Nat := (Finset.range (u + 1)).filter (fun m => Submask m u)

/-- The state of the fold of `solve_revenue` once the bidders below `t` are
folded in: three buffers of size `N` that hold `0` at index 0, and every
accumulator entry below the bound `n` lies between `0` and the sum of the first
`t` budgets. -/
structure FoldInv (N n : Nat) (budget : List Int) (t : Nat) (B : Buffers) : Prop where
  lenS : B.S.length = N
  lenSp : B.Sp.length = N
  lenSr : B.Sr.length = N
  zeroS : B.S.getD 0 0 = 0
  zeroSp : B.Sp.getD 0 0 = 0
  zeroSr : B.Sr.getD 0 0 = 0
  bound : ∀ u, u < n → 0 ≤ B.S.getD u 0 ∧ B.S.getD u 0 ≤ (budget.take t).sum

/-- The shape of the buffers of `solve_revenue`: three tables of size `N` whose
entries outside the enumerated range `[1, n)` hold `0`. -/
structure ShapeInv (N n : Nat) (B : Buffers) : Prop where
  lenS : B.S.length = N
  lenSp : B.Sp.length = N
  lenSr : B.Sr.length = N
  outS : ∀ i, ¬(1 ≤ i ∧ i < n) → B.S.getD i 0 = 0
  outSp : ∀ i, ¬(1 ≤ i ∧ i < n) → B.Sp.getD i 0 = 0
  outSr : ∀ i, ¬(1 ≤ i ∧ i < n) → B.Sr.getD i 0 = 0

/-- The bounds that keep the sums of the fold inside 32 bits: the shape of the
buffers, and every accumulator entry below the bound between `0` and the number
of items in the subset times the largest bid `M`. -/
structure SumInv (k n : Nat) (M : Int) (B : Buffers) : Prop where
  shape : ShapeInv (2 ^ k) n B
  bound : ∀ u, u < n → 0 ≤ B.S.getD u 0 ∧ B.S.getD u 0 ≤ (bitCount k u : Int) * M

/-! ## The specification's side of the solver -/

/-- All ways of giving each of `k` items to at most one of `n` bidders: entry `j`
of an assignment names the bidder who receives item `j`, or `none`. -/
def assignments (n : Nat) : Nat → List (List (Option Nat))
  | 0 => [[]]
  | k + 1 => (assignments n k).flatMap
      (fun a => (none :: (List.range n).map some).map (fun c => c :: a))

/-- The revenue of an assignment: every bidder pays the sum of the bids for the
items received, capped at the budget; bids are row-major, `bids[i * items + j]`. -/
def assignmentRevenue (inst : Instance) (a : List (Option Nat)) : Int :=
  ((List.range inst.bidders).map (fun i =>
    min (inst.budget.getD i 0)
      (((List.range inst.items).filter (fun j => a.getD j none = some i)).map
        (fun j => inst.bids.getD (i * inst.items + j) 0)).sum)).sum

/-- The optimum the specification asks for: the largest revenue of any assignment. -/
def optimalRevenue (inst : Instance) : Option Int :=
  ((assignments inst.bidders inst.items).map (assignmentRevenue inst)).max?

/-- The table `AllocationRevenue(cap, row)` as the specification words it: entry
`u` in `[1, 2 ^ items)` is the smaller of `cap` and the sum of `row[j]` over the
bits `j` of `u`; entry 0 is 0. -/
def AllocationRevenue (items : Nat) (cap : Int) (row : List Int) : List Int :=
  (List.range (2 ^ items)).map (fun u => if u = 0 then 0 else min cap (bidSum items row u))

/-- The table `SubsetMerge(A, B)` as the specification words it: entry `u` in
`[1, 2 ^ items)` is the maximum of `A[m] + B[u - m]` over the submasks `m` of
`u`; entry 0 is 0. -/
def SubsetMerge (items : Nat) (A B : List Int) : List Int :=
  (List.range (2 ^ items)).map (fun u => if u = 0 then 0 else
    ((((List.range (u + 1)).filter (fun m => m &&& u = m)).map
      (fun m => A.getD m 0 + B.getD (u - m) 0)).max?).getD 0)

/-- The fold `AuctionSolver` as the specification words it: start from the
table of bidder 0, merge in the table of each further bidder, return the entry
at the full item mask `(1 << items) - 1`.  Row `i` of the bids starts at
`i * items`. -/
def AuctionSolver (inst : Instance) : Int :=
  let row := fun i => (inst.bids.drop (i * inst.items)).take inst.items
  let acc := (List.range' 1 (inst.bidders - 1)).foldl
    (fun acc i =>
      SubsetMerge inst.items acc (AllocationRevenue inst.items (inst.budget.getD i 0) (row i)))
    (AllocationRevenue inst.items (inst.budget.getD 0 0) (row 0))
  acc.getD (2 ^ inst.items - 1) 0

/-! ## Bit strings -/

theorem submask_iff_testBit (m u : Nat) :
    Submask m u ↔ ∀ i, m.testBit i = true → u.testBit i = true := by
  unfold Submask
  constructor
  · intro h i hi
    have := congrArg (fun x => x.testBit i) h
    simp only [Nat.testBit_and, hi, Bool.true_and] at this
    exact this
  · intro h
    apply Nat.eq_of_testBit_eq
    intro i
    rw [Nat.testBit_and]
    cases hm : m.testBit i
    · simp
    · simp [h i hm]

theorem Submask.le {m u : Nat} (h : Submask m u) : m ≤ u := by
  unfold Submask at h
  rw [← h]
  exact Nat.and_le_right

theorem and_mod_two (a b : Nat) : (a &&& b) % 2 = (a % 2) * (b % 2) := by
  have h := @Nat.and_mod_two_eq_one a b
  rcases Nat.mod_two_eq_zero_or_one a with ha | ha <;>
  rcases Nat.mod_two_eq_zero_or_one b with hb | hb <;>
  rcases Nat.mod_two_eq_zero_or_one (a &&& b) with hab | hab <;>
  simp_all

theorem Submask.div_two {m u : Nat} (h : Submask m u) : Submask (m / 2) (u / 2) := by
  unfold Submask at *
  rw [← Nat.and_div_two, h]

theorem Submask.mod_two {m u : Nat} (h : Submask m u) : m % 2 ≤ u % 2 := by
  unfold Submask at h
  have := and_mod_two m u
  rw [h] at this
  rcases Nat.mod_two_eq_zero_or_one m with ha | ha <;>
  rcases Nat.mod_two_eq_zero_or_one u with hb | hb <;> simp_all

/-- The predecessor step lands on the largest submask below `m`. -/
theorem le_pred_and (m : Nat) : ∀ u m', 0 < m → Submask m u → Submask m' u → m' < m →
    m' ≤ (m - 1) &&& u := by
  induction m using Nat.strong_induction_on with
  | _ m ih =>
    intro u m' hm hmu hm'u hlt
    have hd := @Nat.and_div_two (m - 1) u
    have hmod := and_mod_two (m - 1) u
    have h1 := hmu.div_two
    have h2 := hm'u.div_two
    have h3 := hmu.mod_two
    have h4 := hm'u.mod_two
    rcases Nat.mod_two_eq_zero_or_one m with hc | hc
    · have hm2 : 0 < m / 2 := by omega
      have hlt2 : m' / 2 < m / 2 := by omega
      have := ih (m / 2) (by omega) (u / 2) (m' / 2) hm2 h1 h2 hlt2
      have e1 : (m - 1) / 2 = m / 2 - 1 := by omega
      have e2 : (m - 1) % 2 = 1 := by omega
      rw [e1] at hd
      rw [e2] at hmod
      omega
    · have e1 : (m - 1) / 2 = m / 2 := by omega
      have e2 : (m - 1) % 2 = 0 := by omega
      rw [e1] at hd
      rw [e2] at hmod
      unfold Submask at h1
      rw [h1] at hd
      omega

theorem subStep_pos {u m : Nat} (hm : 0 < m) (hlt : m < 2 ^ 32) :
    subStep u m = (m - 1) &&& u := by
  unfold subStep
  have : (m + (2 ^ 32 - 1)) % 2 ^ 32 = m - 1 := by omega
  rw [this]

theorem subStep_zero {u : Nat} (hu : u < 2 ^ 32) : subStep u 0 = u := by
  unfold subStep
  have : (0 + (2 ^ 32 - 1)) % 2 ^ 32 = 2 ^ 32 - 1 := by norm_num
  rw [this, Nat.and_comm, Nat.and_pow_two_sub_one_eq_mod]
  exact Nat.mod_eq_of_lt hu

theorem testBit_restOf (u m i : Nat) (hm : m < 2 ^ 32) :
    (restOf u m).testBit i = (decide (i < 32) && !m.testBit i && u.testBit i) := by
  unfold restOf
  have : 2 ^ 32 - 1 - m = 2 ^ 32 - (m + 1) := by omega
  rw [this, Nat.testBit_and, Nat.testBit_two_pow_sub_succ hm]

/-! ## Loops that fill a table -/

/-- A loop body that stores `f u` at index `u`, for every `u` of `l`, succeeds when
every `f u` is defined and every `u` is inside the table; afterwards index `i`
holds `f i` if `i` was visited and is unchanged otherwise. -/
theorem foldlM_store (f : Nat → Option Int) (step : List Int → Nat → Option (List Int))
    (hstep : ∀ T u, step T u = (f u).bind (store T u)) :
    ∀ (l : List Nat) (T : List Int), (∀ u ∈ l, u < T.length ∧ ∃ x, f u = some x) →
      ∃ T', l.foldlM step T = some T' ∧ T'.length = T.length ∧
        ∀ i, T'[i]? = if i ∈ l then f i else T[i]? := by
  intro l
  induction l with
  | nil => intro T _; exact ⟨T, rfl, rfl, by simp⟩
  | cons a l ih =>
    intro T h
    obtain ⟨ha, x, hx⟩ := h a (List.mem_cons_self _ _)
    have hs : step T a = some (T.set a x) := by
      rw [hstep, hx]; simp [store, ha]
    obtain ⟨T', h1, h2, h3⟩ := ih (T.set a x) (by
      intro u hu
      have := h u (List.mem_cons_of_mem _ hu)
      simpa using this)
    refine ⟨T', ?_, ?_, ?_⟩
    · rw [List.foldlM_cons, hs]; exact h1
    · simpa using h2
    · intro i
      rw [h3 i]
      by_cases hil : i ∈ l
      · simp [hil]
      · by_cases hia : i = a
        · subst hia
          simp [hil, List.getElem?_set, ha, hx]
        · have : ¬ a = i := fun h => hia h.symm
          simp [hil, hia, List.getElem?_set, this]

/-- Conversely, if the loop succeeds then every visited index was inside the
table and every `f u` was defined. -/
theorem foldlM_store_some (f : Nat → Option Int) (step : List Int → Nat → Option (List Int))
    (hstep : ∀ T u, step T u = (f u).bind (store T u)) :
    ∀ (l : List Nat) (T T' : List Int), l.foldlM step T = some T' →
      ∀ u ∈ l, u < T.length ∧ ∃ x, f u = some x := by
  intro l
  induction l with
  | nil => intro T T' _ u hu; simp at hu
  | cons a l ih =>
    intro T T' h u hu
    rw [List.foldlM_cons] at h
    cases hs : step T a with
    | none => rw [hs] at h; simp at h
    | some T1 =>
      rw [hs] at h
      rw [hstep] at hs
      cases hf : f a with
      | none => rw [hf] at hs; simp at hs
      | some x =>
        rw [hf] at hs
        simp only [Option.some_bind, store] at hs
        split at hs
        · rename_i hlt
          injection hs with hs
          rcases List.mem_cons.1 hu with rfl | hul
          · exact ⟨hlt, x, hf⟩
          · have := ih T1 T' h u hul
            rw [← hs] at this
            simpa using this
        · simp at hs

/-! ## The submask loop of `mergeZ` -/

theorem restOf_le (u m : Nat) : restOf u m ≤ u := Nat.and_le_right

theorem getElem?_eq_getD {T : List Int} {i : Nat} (h : i < T.length) :
    T[i]? = some (T.getD i 0) := by
  simp [List.getD, List.getElem?_eq_getElem h]

/-- The submask loop started at a submask `m` of `u` with enough fuel returns
the maximum of the running value `r` and the split values at all submasks of
`u` that are at most `m`. -/
theorem mergeLoopZ_spec (S Sp : List Int) (u : Nat) (hu : u < 2 ^ 32)
    (hS : u < S.length) (hSp : u < Sp.length) :
    ∀ fuel m r, Submask m u → m < fuel →
      ∃ v, mergeLoopZ S Sp u fuel m r = some v ∧ r ≤ v ∧
        (∀ m', Submask m' u → m' ≤ m → splitValue S Sp u m' ≤ v) ∧
        (v = r ∨ ∃ m', Submask m' u ∧ m' ≤ m ∧ v = splitValue S Sp u m') := by
  intro fuel
  induction fuel with
  | zero => intro m r _ h; omega
  | succ fuel ih =>
    intro m r hm hfuel
    have hmu := hm.le
    have h1 : S[m]? = some (S.getD m 0) := getElem?_eq_getD (by omega)
    have h2 : Sp[restOf u m]? = some (Sp.getD (restOf u m) 0) :=
      getElem?_eq_getD (by have := restOf_le u m; omega)
    unfold mergeLoopZ
    rw [h1, h2]
    simp only
    rcases Nat.eq_zero_or_pos m with h0 | hpos
    · subst h0
      rw [subStep_zero hu]
      simp only [if_true]
      refine ⟨_, rfl, le_max_left _ _, ?_, ?_⟩
      · intro m' _ hle
        have : m' = 0 := by omega
        subst this
        exact le_max_right _ _
      · rcases max_choice r (S.getD 0 0 + Sp.getD (restOf u 0) 0) with h | h
        · exact Or.inl h
        · exact Or.inr ⟨0, hm, le_refl _, h⟩
    · have hs : subStep u m = (m - 1) &&& u := subStep_pos hpos (by omega)
      have hlt : subStep u m < m := by
        rw [hs]
        have : (m - 1) &&& u ≤ m - 1 := Nat.and_le_left
        omega
      have hne : subStep u m ≠ u := by omega
      have hsub : Submask (subStep u m) u := by
        rw [hs]; unfold Submask
        rw [Nat.and_assoc, Nat.and_self]
      rw [if_neg hne]
      obtain ⟨v, hv, hrv, hall, hatt⟩ :=
        ih (subStep u m) (max r (S.getD m 0 + Sp.getD (restOf u m) 0)) hsub (by omega)
      refine ⟨v, hv, le_trans (le_max_left _ _) hrv, ?_, ?_⟩
      · intro m' hm' hle
        rcases Nat.eq_or_lt_of_le hle with rfl | hlt'
        · exact le_trans (le_max_right _ _) hrv
        · apply hall m' hm'
          rw [hs]
          exact le_pred_and m u m' hpos hm hm' hlt'
      · rcases hatt with h | ⟨m', hm', hle, h⟩
        · rcases max_choice r (S.getD m 0 + Sp.getD (restOf u m) 0) with h' | h'
          · exact Or.inl (h.trans h')
          · exact Or.inr ⟨m, hm, le_refl _, h.trans h'⟩
        · exact Or.inr ⟨m', hm', by omega, h⟩

theorem submask_refl (u : Nat) : Submask u u := Nat.and_self u

/-- The value `mergeZ` computes for index `u`: the maximum of `S[u]` and of all
split values of `u`. -/
theorem mergeEntryZ_spec (S Sp : List Int) (u : Nat) (hu : u < 2 ^ 32)
    (hS : u < S.length) (hSp : u < Sp.length) :
    ∃ v, mergeEntryZ S Sp u = some v ∧ S.getD u 0 ≤ v ∧
      (∀ m, Submask m u → splitValue S Sp u m ≤ v) ∧
      (v = S.getD u 0 ∨ ∃ m, Submask m u ∧ v = splitValue S Sp u m) := by
  obtain ⟨v, hv, h1, h2, h3⟩ :=
    mergeLoopZ_spec S Sp u hu hS hSp (u + 1) u (S.getD u 0) (submask_refl u) (by omega)
  refine ⟨v, ?_, h1, fun m hm => h2 m hm hm.le, ?_⟩
  · unfold mergeEntryZ
    rw [getElem?_eq_getD hS]
    exact hv
  · rcases h3 with h | ⟨m, hm, _, h⟩
    · exact Or.inl h
    · exact Or.inr ⟨m, hm, h⟩

theorem mergeStepZ_eq (S Sp T : List Int) (u : Nat) :
    mergeStepZ S Sp T u = (mergeEntryZ S Sp u).bind (store T u) := by
  unfold mergeStepZ
  cases mergeEntryZ S Sp u <;> rfl

theorem mem_range'_one {n u : Nat} : u ∈ List.range' 1 (n - 1) ↔ 1 ≤ u ∧ u < n := by
  simp only [List.mem_range'_1]
  omega

/-- The function `mergeZ` succeeds when the bound stays inside the three tables;
it leaves the size of `Sr` unchanged and writes `mergeEntryZ S Sp u` at every
`u` in `[1, n)` and nothing else. -/
theorem mergeZ_spec (Sr S Sp : List Int) (n : Nat) (hn : n ≤ 2 ^ 32)
    (hS : n ≤ S.length) (hSp : n ≤ Sp.length) (hSr : n ≤ Sr.length) :
    ∃ Sr', mergeZ Sr n S Sp = some Sr' ∧ Sr'.length = Sr.length ∧
      ∀ i, Sr'[i]? = if 1 ≤ i ∧ i < n then mergeEntryZ S Sp i else Sr[i]? := by
  obtain ⟨T, h1, h2, h3⟩ := foldlM_store (mergeEntryZ S Sp) (mergeStepZ S Sp)
    (mergeStepZ_eq S Sp) (List.range' 1 (n - 1)) Sr (by
      intro u hu
      rw [mem_range'_one] at hu
      obtain ⟨v, hv, _⟩ := mergeEntryZ_spec S Sp u (by omega) (by omega) (by omega)
      exact ⟨by omega, v, hv⟩)
  refine ⟨T, h1, h2, ?_⟩
  intro i
  rw [h3 i]
  simp only [mem_range'_one]

/-! ## The set-bit loop of `revenueZ` -/

theorem bidSum_eq_from (k : Nat) (b : List Int) (u : Nat) :
    bidSum k b u = bidSumFrom b u 0 k := by
  unfold bidSum bidSumFrom
  rw [List.range_eq_range']

theorem bidSumFrom_zero (b : List Int) (u lo : Nat) : bidSumFrom b u lo 0 = 0 := by
  simp [bidSumFrom]

theorem bidSumFrom_succ (b : List Int) (u lo len : Nat) :
    bidSumFrom b u lo (len + 1) =
      (if u.testBit lo then b.getD lo 0 else 0) + bidSumFrom b u (lo + 1) len := by
  unfold bidSumFrom
  rw [List.range'_succ, List.filter_cons]
  split <;> simp

theorem bidSumFrom_skip (b : List Int) (u : Nat) :
    ∀ gap lo len, (∀ j, lo ≤ j → j < lo + gap → u.testBit j = false) →
      bidSumFrom b u lo (gap + len) = bidSumFrom b u (lo + gap) len := by
  intro gap
  induction gap with
  | zero => intro lo len _; simp
  | succ gap ih =>
    intro lo len h
    have e : gap + 1 + len = (gap + len) + 1 := by omega
    rw [e, bidSumFrom_succ, h lo (le_refl _) (by omega)]
    have := ih (lo + 1) len (fun j h1 h2 => h j (by omega) (by omega))
    simp only [Bool.false_eq_true, if_false, zero_add]
    rw [this]
    congr 1
    omega

theorem ctzAux_spec : ∀ fuel w, w ≠ 0 → w < 2 ^ fuel →
    w.testBit (ctzAux fuel w) = true ∧ ∀ j, j < ctzAux fuel w → w.testBit j = false := by
  intro fuel
  induction fuel with
  | zero => intro w h0 hlt; simp at hlt; exact absurd hlt h0
  | succ fuel ih =>
    intro w h0 hlt
    unfold ctzAux
    split
    · rename_i h1
      refine ⟨by simp [Nat.testBit_zero, h1], fun j hj => by omega⟩
    · rename_i h1
      have hw : w / 2 ≠ 0 := by omega
      have hlt2 : w / 2 < 2 ^ fuel := by
        rw [pow_succ] at hlt
        omega
      obtain ⟨a, c⟩ := ih (w / 2) hw hlt2
      refine ⟨by rw [Nat.testBit_succ]; exact a, ?_⟩
      intro j hj
      cases j with
      | zero => simp [Nat.testBit_zero, h1]
      | succ j => rw [Nat.testBit_succ]; exact c j (by omega)

theorem testBit_word (s i j : Nat) :
    (s &&& ((WORD_MASK <<< i) % 2 ^ 32)).testBit j =
      (s.testBit j && (decide (j < 32) && decide (i ≤ j))) := by
  have hW : WORD_MASK = 2 ^ 32 - 1 := by decide
  rw [Nat.testBit_and, Nat.testBit_mod_two_pow, Nat.testBit_shiftLeft, hW,
    Nat.testBit_two_pow_sub_one]
  by_cases h1 : j < 32 <;> by_cases h2 : i ≤ j <;> simp [h1, h2]
  omega

/-- The function `nextSetBit` finds the lowest set bit at or after position `i`,
and answers `-1` exactly when bits `i .. 31` are all clear. -/
theorem nextSetBit_spec (s i : Nat) (hi : i < 32) :
    (nextSetBit s i = some (-1) ∧ ∀ j, i ≤ j → j < 32 → s.testBit j = false) ∨
    ∃ j : Nat, nextSetBit s i = some (j : Int) ∧ i ≤ j ∧ j < 32 ∧ s.testBit j = true ∧
      ∀ j', i ≤ j' → j' < j → s.testBit j' = false := by
  unfold nextSetBit
  rw [if_neg (by omega)]
  simp only
  by_cases hw : s &&& ((WORD_MASK <<< i) % 2 ^ 32) = 0
  · left
    refine ⟨by rw [if_neg (not_not.mpr hw)], ?_⟩
    intro j h1 h2
    have := congrArg (fun x => x.testBit j) hw
    simp only [testBit_word, Nat.zero_testBit] at this
    simpa [h1, h2] using this
  · right
    have hlt : s &&& ((WORD_MASK <<< i) % 2 ^ 32) < 2 ^ 32 :=
      Nat.and_lt_two_pow _ (Nat.mod_lt _ (by decide))
    obtain ⟨a, c⟩ := ctzAux_spec 32 _ hw hlt
    rw [testBit_word] at a
    simp only [Bool.and_eq_true, decide_eq_true_eq] at a
    refine ⟨ctz (s &&& ((WORD_MASK <<< i) % 2 ^ 32)), by rw [if_pos hw], a.2.2, a.2.1, a.1, ?_⟩
    intro j' h1 h2
    have := c j' h2
    rw [testBit_word] at this
    have h3 : j' < 32 := lt_trans h2 a.2.1
    simpa [h1, h3] using this

theorem bit_lt_of_lt_two_pow {u k j : Nat} (hu : u < 2 ^ k) (hj : u.testBit j = true) :
    j < k := by
  by_contra hge
  have h1 : 2 ^ k ≤ 2 ^ j := Nat.pow_le_pow_right (by decide) (by omega)
  have := Nat.testBit_lt_two_pow (lt_of_lt_of_le hu h1)
  rw [hj] at this
  exact Bool.noConfusion this

/-- Entering the loop of `revenueZ` at the first set bit from position `i` on,
with running sum `r`, ends with `r` plus the bids at all set bits from `i` on. -/
theorem revenueLoopZ_spec (b : List Int) (u k : Nat) (hk : k ≤ 31) (hu : u < 2 ^ k)
    (hb : ∀ j, u.testBit j = true → j < b.length) :
    ∀ fuel i r, i ≤ k → k - i < fuel →
      ∃ j, nextSetBit u i = some j ∧
        revenueLoopZ b u fuel j r = some (r + bidSumFrom b u i (k - i)) := by
  intro fuel
  induction fuel with
  | zero => intro i r _ h; omega
  | succ fuel ih =>
    intro i r hik hfuel
    rcases nextSetBit_spec u i (by omega) with ⟨h1, h2⟩ | ⟨j, h1, hij, _, hbit, hlow⟩
    · refine ⟨-1, h1, ?_⟩
      have hz : bidSumFrom b u i (k - i) = 0 := by
        have := bidSumFrom_skip b u (k - i) i 0 (fun j a c => h2 j a (by omega))
        rw [Nat.add_zero, bidSumFrom_zero] at this
        exact this
      rw [hz, add_zero]
      unfold revenueLoopZ
      rw [if_neg (by decide)]
    · have hjk : j < k := bit_lt_of_lt_two_pow hu hbit
      refine ⟨(j : Int), h1, ?_⟩
      obtain ⟨j', hn, hl⟩ := ih (j + 1) (r + b.getD j 0) (by omega) (by omega)
      have hsum : bidSumFrom b u i (k - i) = b.getD j 0 + bidSumFrom b u (j + 1) (k - (j + 1)) := by
        have e1 : k - i = (j - i) + (k - j) := by omega
        have e2 : i + (j - i) = j := by omega
        have e3 : k - j = (k - (j + 1)) + 1 := by omega
        rw [e1, bidSumFrom_skip b u (j - i) i (k - j) (fun j' a c => hlow j' a (by omega)),
          e2, e3, bidSumFrom_succ, hbit]
        simp
      unfold revenueLoopZ
      rw [if_pos (Int.natCast_nonneg j), Int.toNat_natCast, getElem?_eq_getD (hb j hbit)]
      simp only
      rw [hn]
      simp only
      rw [hl, hsum, add_assoc]

/-- The function `revenueZ` returns the budget cap or the sum of the bids at the
set bits of `u`, whichever is smaller, provided `u` fits in `k ≤ 31` bits and
every set bit of `u` indexes inside `b`. -/
theorem revenueZ_spec (d : Int) (b : List Int) (u k : Nat) (hk : k ≤ 31) (hu : u < 2 ^ k)
    (hb : ∀ j, u.testBit j = true → j < b.length) :
    revenueZ d b u = some (min (bidSum k b u) d) := by
  obtain ⟨j, h1, h2⟩ := revenueLoopZ_spec b u k hk hu hb 33 0 0 (Nat.zero_le _) (by omega)
  unfold revenueZ
  rw [h1]
  simp only
  rw [h2]
  simp only [zero_add, Nat.sub_zero, bidSum_eq_from]

theorem generateStepZ_eq (d : Int) (b T : List Int) (u : Nat) :
    generateStepZ d b T u = (revenueZ d b u).bind (store T u) := by
  unfold generateStepZ
  cases revenueZ d b u <;> rfl

/-- The function `generateZ` succeeds when the bound `n` stays inside the table,
`n ≤ 2 ^ k` with `k ≤ 31`, and the row `b` holds at least `k` bids; it leaves
the size of the table unchanged and writes the capped bid sum at every `u` in
`[1, n)` and nothing else. -/
theorem generateZ_spec (T : List Int) (n k : Nat) (d : Int) (b : List Int) (hk : k ≤ 31)
    (hn : n ≤ 2 ^ k) (hT : n ≤ T.length) (hb : 2 ≤ n → k ≤ b.length) :
    ∃ T', generateZ T n d b = some T' ∧ T'.length = T.length ∧
      ∀ i, T'[i]? = if 1 ≤ i ∧ i < n then some (min (bidSum k b i) d) else T[i]? := by
  obtain ⟨T', h1, h2, h3⟩ := foldlM_store (revenueZ d b) (generateStepZ d b)
    (generateStepZ_eq d b) (List.range' 1 (n - 1)) T (by
      intro u hu
      rw [mem_range'_one] at hu
      have hu2 : u < 2 ^ k := by omega
      exact ⟨by omega, _, revenueZ_spec d b u k hk hu2
        (fun j hj => lt_of_lt_of_le (bit_lt_of_lt_two_pow hu2 hj) (hb (by omega)))⟩)
  refine ⟨T', h1, h2, ?_⟩
  intro i
  rw [h3 i]
  simp only [mem_range'_one]
  split
  · rename_i hi
    have hu2 : i < 2 ^ k := by omega
    exact revenueZ_spec d b i k hk hu2
      (fun j hj => lt_of_lt_of_le (bit_lt_of_lt_two_pow hu2 hj) (hb (by omega)))
  · rfl

/-- Whenever `generateZ` succeeds, the entry at a visited index is what `revenueZ`
returned there, every visited index is inside the table, and nothing else
changed. -/
theorem generateZ_entry (T T' : List Int) (n : Nat) (d : Int) (b : List Int)
    (h : generateZ T n d b = some T') :
    T'.length = T.length ∧ (∀ u, 1 ≤ u → u < n → u < T.length) ∧
      ∀ i, T'[i]? = if 1 ≤ i ∧ i < n then revenueZ d b i else T[i]? := by
  have hs := foldlM_store_some (revenueZ d b) (generateStepZ d b) (generateStepZ_eq d b)
    (List.range' 1 (n - 1)) T T' h
  obtain ⟨T2, h1, h2, h3⟩ := foldlM_store (revenueZ d b) (generateStepZ d b)
    (generateStepZ_eq d b) (List.range' 1 (n - 1)) T hs
  have e : T2 = T' := Option.some.inj (h1.symm.trans h)
  subst e
  refine ⟨h2, fun u a c => (hs u (mem_range'_one.2 ⟨a, c⟩)).1, fun i => ?_⟩
  rw [h3 i]
  simp only [mem_range'_one]

theorem bidSum_succ (k : Nat) (b : List Int) (u : Nat) :
    bidSum (k + 1) b u = bidSum k b u + (if u.testBit k then b.getD k 0 else 0) := by
  unfold bidSum
  rw [List.range_succ, List.filter_append, List.map_append, List.sum_append]
  congr 1
  rw [List.filter_cons]
  split <;> simp

theorem getD_nonneg (b : List Int) (hpos : ∀ x ∈ b, 0 ≤ x) (j : Nat) : 0 ≤ b.getD j 0 := by
  rw [List.getD_eq_getElem?_getD]
  cases h : b[j]? with
  | none => simp
  | some x => exact hpos x (List.getElem?_mem h)

theorem bidSum_nonneg (b : List Int) (hpos : ∀ x ∈ b, 0 ≤ x) (u : Nat) :
    ∀ k, 0 ≤ bidSum k b u := by
  intro k
  induction k with
  | zero => simp [bidSum]
  | succ k ih =>
    rw [bidSum_succ]
    have := getD_nonneg b hpos k
    split <;> omega

theorem bidSum_mono (b : List Int) (hpos : ∀ x ∈ b, 0 ≤ x) (u v : Nat) (huv : Submask u v) :
    ∀ k, bidSum k b u ≤ bidSum k b v := by
  intro k
  induction k with
  | zero => simp [bidSum]
  | succ k ih =>
    rw [bidSum_succ, bidSum_succ]
    have h0 := getD_nonneg b hpos k
    have hbit := (submask_iff_testBit u v).1 huv k
    cases hu : u.testBit k with
    | false =>
      simp only [Bool.false_eq_true, if_false, add_zero]
      split <;> omega
    | true =>
      rw [hbit hu]
      simp only [if_true]
      omega

/-- Over unbounded integers: for tables `S`, `Sp` and an output buffer `Sr` that all hold the
enumeration bound `n`, with `Sp[0] = 0`, `mergeZ` succeeds, and for every
enumerated `u` (`1 ≤ u < n`) the value it writes to `Sr[u]` is the maximum over
all submasks `m` of `u` (including `m = u` and `m = 0`) of `S[m] + Sp[~m & u]`. -/
theorem mergeZ_writes_max_split (Sr S Sp : List Int) (n : Nat) (hn : n ≤ 2 ^ 32)
    (hS : n ≤ S.length) (hSp : n ≤ Sp.length) (hSr : n ≤ Sr.length)
    (h0 : Sp[0]? = some 0) :
    ∃ Sr', mergeZ Sr n S Sp = some Sr' ∧
      ∀ u, 1 ≤ u → u < n → ∃ v, Sr'[u]? = some v ∧ IsMaxSplit S Sp u v := by
  obtain ⟨Sr', h1, _, h3⟩ := mergeZ_spec Sr S Sp n hn hS hSp hSr
  refine ⟨Sr', h1, ?_⟩
  intro u hu1 hun
  obtain ⟨v, hv, hge, hall, hatt⟩ := mergeEntryZ_spec S Sp u (by omega) (by omega) (by omega)
  refine ⟨v, ?_, ?_, hall⟩
  · rw [h3 u, if_pos ⟨hu1, hun⟩, hv]
  · rcases hatt with h | h
    · refine ⟨u, submask_refl u, ?_⟩
      have hr : restOf u u = 0 := by
        apply Nat.eq_of_testBit_eq
        intro i
        rw [testBit_restOf u u i (by omega)]
        cases u.testBit i <;> simp
      have h00 : Sp.getD 0 0 = 0 := by
        rw [List.getD_eq_getElem?_getD, h0]; rfl
      unfold splitValue
      rw [hr, h00, h, add_zero]
    · exact h

/-! ## Complements inside a mask -/

theorem testBit_restOf_of_le {u m : Nat} (hu : u < 2 ^ 32) (hm : m ≤ u) (i : Nat) :
    (restOf u m).testBit i = (!m.testBit i && u.testBit i) := by
  rw [testBit_restOf u m i (by omega)]
  cases hbit : u.testBit i with
  | false => simp
  | true =>
    have : i < 32 := bit_lt_of_lt_two_pow hu hbit
    simp [this]

theorem restOf_submask (u m : Nat) : Submask (restOf u m) u := by
  unfold Submask restOf
  rw [Nat.and_assoc, Nat.and_self]

theorem restOf_zero {u : Nat} (hu : u < 2 ^ 32) : restOf u 0 = u := by
  apply Nat.eq_of_testBit_eq
  intro i
  rw [testBit_restOf_of_le hu (Nat.zero_le _)]
  simp

theorem restOf_restOf {u m : Nat} (hu : u < 2 ^ 32) (hm : Submask m u) :
    restOf u (restOf u m) = m := by
  apply Nat.eq_of_testBit_eq
  intro i
  rw [testBit_restOf_of_le hu (restOf_le u m), testBit_restOf_of_le hu hm.le]
  have := (submask_iff_testBit m u).1 hm i
  cases h1 : m.testBit i <;> cases h2 : u.testBit i <;> simp_all

theorem Submask.trans {a c e : Nat} (h1 : Submask a c) (h2 : Submask c e) : Submask a e := by
  rw [submask_iff_testBit] at *
  exact fun i hi => h2 i (h1 i hi)

/-! ## Associativity of `mergeZ` -/

theorem getD_of_getElem? {T : List Int} {i : Nat} {x : Int} (h : T[i]? = some x) :
    T.getD i 0 = x := by
  rw [List.getD_eq_getElem?_getD, h]
  rfl

/-- Whenever `mergeZ` succeeds, the entry at a visited index is what `mergeEntryZ`
returned there, every visited index is inside the buffer, and nothing else
changed. -/
theorem mergeZ_entry (Sr Sr' S Sp : List Int) (n : Nat) (h : mergeZ Sr n S Sp = some Sr') :
    Sr'.length = Sr.length ∧ (∀ u, 1 ≤ u → u < n → u < Sr.length) ∧
      ∀ i, Sr'[i]? = if 1 ≤ i ∧ i < n then mergeEntryZ S Sp i else Sr[i]? := by
  have hs := foldlM_store_some (mergeEntryZ S Sp) (mergeStepZ S Sp) (mergeStepZ_eq S Sp)
    (List.range' 1 (n - 1)) Sr Sr' h
  obtain ⟨T2, h1, h2, h3⟩ := foldlM_store (mergeEntryZ S Sp) (mergeStepZ S Sp)
    (mergeStepZ_eq S Sp) (List.range' 1 (n - 1)) Sr hs
  have e : T2 = Sr' := Option.some.inj (h1.symm.trans h)
  subst e
  refine ⟨h2, fun u a c => (hs u (mem_range'_one.2 ⟨a, c⟩)).1, fun i => ?_⟩
  rw [h3 i]
  simp only [mem_range'_one]

/-- An invariant that every successful step carries from `i` to `i + 1` holds
after a successful fold over `lo, lo + 1, ..`. -/
theorem foldlM_range'_inv {β : Type} (f : β → Nat → Option β) (P : Nat → β → Prop) :
    ∀ len lo c c', (List.range' lo len).foldlM f c = some c' → P lo c →
      (∀ i x y, lo ≤ i → i < lo + len → P i x → f x i = some y → P (i + 1) y) →
      P (lo + len) c' := by
  intro len
  induction len with
  | zero =>
    intro lo c c' h hP _
    simp only [List.range'_zero, List.foldlM_nil] at h
    cases h
    exact hP
  | succ len ih =>
    intro lo c c' h hP hstep
    rw [List.range'_succ, List.foldlM_cons] at h
    cases hf : f c lo with
    | none => rw [hf] at h; simp at h
    | some y =>
      rw [hf] at h
      have := ih (lo + 1) y c' h (hstep lo c y (le_refl _) (by omega) hP hf)
        (fun i x z a e => hstep i x z (by omega) (by omega))
      have e : lo + 1 + len = lo + (len + 1) := by omega
      rw [e] at this
      exact this

/-- A fold over `lo, lo + 1, ..` succeeds when every step succeeds on states
that satisfy a property the steps preserve. -/
theorem foldlM_range'_defined {β : Type} (f : β → Nat → Option β) (Q : β → Prop) :
    ∀ len lo c, Q c →
      (∀ i x, lo ≤ i → i < lo + len → Q x → ∃ y, f x i = some y ∧ Q y) →
      ∃ c', (List.range' lo len).foldlM f c = some c' ∧ Q c' := by
  intro len
  induction len with
  | zero => intro lo c hQ _; exact ⟨c, rfl, hQ⟩
  | succ len ih =>
    intro lo c hQ hstep
    obtain ⟨y, hy, hQy⟩ := hstep lo c (le_refl _) (by omega) hQ
    obtain ⟨c', h1, h2⟩ := ih (lo + 1) y hQy (fun i x a e => hstep i x (by omega) (by omega))
    refine ⟨c', ?_, h2⟩
    rw [List.range'_succ, List.foldlM_cons, hy]
    exact h1

theorem revenueLoopZ_ge (b : List Int) (hpos : ∀ x ∈ b, 0 ≤ x) (u : Nat) :
    ∀ fuel j r r', revenueLoopZ b u fuel j r = some r' → r ≤ r' := by
  intro fuel
  induction fuel with
  | zero => intro j r r' h; simp [revenueLoopZ] at h
  | succ fuel ih =>
    intro j r r' h
    unfold revenueLoopZ at h
    split at h
    · cases hb : b[j.toNat]? with
      | none => rw [hb] at h; simp at h
      | some x =>
        rw [hb] at h
        simp only at h
        cases hn : nextSetBit u (j.toNat + 1) with
        | none => rw [hn] at h; simp at h
        | some j' =>
          rw [hn] at h
          simp only at h
          have := ih j' (r + x) r' h
          have := hpos x (List.getElem?_mem hb)
          omega
    · cases h
      exact le_refl _

/-- Whatever `revenueZ` returns is at most the cap, and is non-negative when the
cap and the bids are. -/
theorem revenueZ_bounds (d : Int) (b : List Int) (u : Nat) (x : Int)
    (h : revenueZ d b u = some x) :
    x ≤ d ∧ (0 ≤ d → (∀ y ∈ b, 0 ≤ y) → 0 ≤ x) := by
  unfold revenueZ at h
  cases hn : nextSetBit u 0 with
  | none => rw [hn] at h; simp at h
  | some j =>
    rw [hn] at h
    simp only at h
    cases hl : revenueLoopZ b u 33 j 0 with
    | none => rw [hl] at h; simp at h
    | some r =>
      rw [hl] at h
      simp only [Option.some.injEq] at h
      subst h
      refine ⟨min_le_right _ _, fun hd hpos => ?_⟩
      exact le_min (revenueLoopZ_ge b hpos u 33 j 0 r hl) hd

theorem getD_congr (T T' : List Int) (i : Nat) (h : T'[i]? = T[i]?) :
    T'.getD i 0 = T.getD i 0 := by
  rw [List.getD_eq_getElem?_getD, List.getD_eq_getElem?_getD, h]

theorem sum_take_succ_of_getElem? (l : List Int) (t : Nat) (d : Int) (h : l[t]? = some d) :
    (l.take (t + 1)).sum = (l.take t).sum + d := by
  obtain ⟨hlt, hd⟩ := List.getElem?_eq_some.1 h
  rw [List.sum_take_succ l t hlt, hd]

/-- Every entry below the bound of a generated table is at most the cap. -/
theorem generateZ_le_cap (T T' : List Int) (n : Nat) (d : Int) (b : List Int)
    (h : generateZ T n d b = some T') (hd : 0 ≤ d) (h0 : T.getD 0 0 = 0) :
    ∀ x, x < n → T'.getD x 0 ≤ d := by
  obtain ⟨gl, gb, ge⟩ := generateZ_entry T T' n d b h
  intro x hx
  rcases Nat.eq_zero_or_pos x with rfl | hpos
  · rw [getD_congr T T' 0 (by rw [ge 0, if_neg (by omega)]), h0]
    exact hd
  · have hlt : x < T'.length := by rw [gl]; exact gb x hpos hx
    have e := ge x
    rw [if_pos ⟨hpos, hx⟩, getElem?_eq_getD hlt] at e
    exact (revenueZ_bounds d b x _ e.symm).1

/-- One round of the fold preserves the invariant. -/
theorem foldStepZ_inv (inst : Instance) (N : Nat) (hN : N ≤ 2 ^ 32)
    (hbud : ∀ x ∈ inst.budget, 0 ≤ x) (t : Nat) (B B' : Buffers)
    (hP : FoldInv N inst.bidders inst.budget t B) (h : foldStepZ inst B t = some B') :
    FoldInv N inst.bidders inst.budget (t + 1) B' := by
  unfold foldStepZ at h
  cases hd : inst.budget[t]? with
  | none => rw [hd] at h; simp at h
  | some d =>
    rw [hd] at h
    simp only at h
    cases hg : generateZ B.Sp inst.bidders d (bidRow inst t) with
    | none => rw [hg] at h; simp at h
    | some Sp' =>
      rw [hg] at h
      simp only at h
      cases hm : mergeZ B.Sr inst.bidders B.S Sp' with
      | none => rw [hm] at h; simp at h
      | some Sr' =>
        rw [hm] at h
        simp only [Option.some.injEq] at h
        subst h
        have hd0 : 0 ≤ d := hbud d (List.getElem?_mem hd)
        obtain ⟨gl, _, ge⟩ := generateZ_entry B.Sp Sp' inst.bidders d (bidRow inst t) hg
        obtain ⟨ml, mb, me⟩ := mergeZ_entry B.Sr Sr' B.S Sp' inst.bidders hm
        have hcap := generateZ_le_cap B.Sp Sp' inst.bidders d (bidRow inst t) hg hd0 hP.zeroSp
        have hsum := sum_take_succ_of_getElem? inst.budget t d hd
        have hz : Sr'.getD 0 0 = 0 := by
          rw [getD_congr B.Sr Sr' 0 (by rw [me 0, if_neg (by omega)]), hP.zeroSr]
        refine ⟨by rw [ml, hP.lenSr], by rw [gl, hP.lenSp], hP.lenS, hz, ?_, hP.zeroS, ?_⟩
        · rw [getD_congr B.Sp Sp' 0 (by rw [ge 0, if_neg (by omega)]), hP.zeroSp]
        · intro u hu
          show 0 ≤ Sr'.getD u 0 ∧ Sr'.getD u 0 ≤ _
          rw [hsum]
          rcases Nat.eq_zero_or_pos u with rfl | hpos
          · rw [hz]
            have := (hP.bound 0 hu)
            rw [hP.zeroS] at this
            omega
          · have huN : u < N := by rw [← hP.lenSr]; exact mb u hpos hu
            obtain ⟨v, hv, hge, _, hatt⟩ := mergeEntryZ_spec B.S Sp' u (by omega)
              (by rw [hP.lenS]; exact huN) (by rw [gl, hP.lenSp]; exact huN)
            have e : Sr'[u]? = some v := by rw [me u, if_pos ⟨hpos, hu⟩, hv]
            rw [getD_of_getElem? e]
            have hSu := hP.bound u hu
            refine ⟨by omega, ?_⟩
            rcases hatt with h1 | ⟨m, hm1, h1⟩
            · omega
            · have a := (hP.bound m (lt_of_le_of_lt hm1.le hu)).2
              have c := hcap (restOf u m) (lt_of_le_of_lt (restOf_le u m) hu)
              unfold splitValue at h1
              omega

/-- What a successful run of `solve_revenueZ` went through. -/
theorem solve_revenueZ_some (inst : Instance) (r : Int) (h : solve_revenueZ inst = some r) :
    inst.items ≤ 30 ∧ inst.bidders ≠ 0 ∧ ∃ d0 S B, inst.budget[0]? = some d0 ∧
      generateZ (List.replicate (2 ^ inst.items) 0) inst.bidders d0 (bidRow inst 0) = some S ∧
      (List.range' 1 (inst.bidders - 1)).foldlM (foldStepZ inst)
        ⟨S, List.replicate (2 ^ inst.items) 0, List.replicate (2 ^ inst.items) 0⟩ = some B ∧
      B.S[inst.bidders - 1]? = some r := by
  unfold solve_revenueZ at h
  split at h
  · simp at h
  · rename_i hk
    simp only at h
    cases hd : inst.budget[0]? with
    | none => rw [hd] at h; simp at h
    | some d0 =>
      rw [hd] at h
      simp only at h
      cases hg : generateZ (List.replicate (2 ^ inst.items) 0) inst.bidders d0 (bidRow inst 0) with
      | none => rw [hg] at h; simp at h
      | some S =>
        rw [hg] at h
        simp only at h
        cases hf : (List.range' 1 (inst.bidders - 1)).foldlM (foldStepZ inst)
            ⟨S, List.replicate (2 ^ inst.items) 0, List.replicate (2 ^ inst.items) 0⟩ with
        | none => rw [hf] at h; simp at h
        | some B =>
          rw [hf] at h
          simp only at h
          split at h
          · simp at h
          · rename_i hn
            exact ⟨by omega, hn, d0, S, B, rfl, hg, hf, h⟩

theorem replicate_getD_zero (N i : Nat) : (List.replicate N (0 : Int)).getD i 0 = 0 := by
  rw [List.getD_eq_getElem?_getD, List.getElem?_replicate]
  split <;> rfl

/-- The invariant holds once the first bidder's table is generated. -/
theorem generateZ_inv (inst : Instance) (d0 : Int) (S : List Int)
    (hbud : ∀ x ∈ inst.budget, 0 ≤ x) (hbids : ∀ x ∈ inst.bids, 0 ≤ x)
    (hd : inst.budget[0]? = some d0)
    (hg : generateZ (List.replicate (2 ^ inst.items) 0) inst.bidders d0 (bidRow inst 0) = some S) :
    FoldInv (2 ^ inst.items) inst.bidders inst.budget 1
      ⟨S, List.replicate (2 ^ inst.items) 0, List.replicate (2 ^ inst.items) 0⟩ := by
  obtain ⟨gl, gb, ge⟩ := generateZ_entry _ S inst.bidders d0 (bidRow inst 0) hg
  have hd0 : 0 ≤ d0 := hbud d0 (List.getElem?_mem hd)
  have hsum := sum_take_succ_of_getElem? inst.budget 0 d0 hd
  simp only [List.take_zero, List.sum_nil, zero_add] at hsum
  have hz : S.getD 0 0 = 0 := by
    rw [getD_congr (List.replicate (2 ^ inst.items) 0) S 0 (by rw [ge 0, if_neg (by omega)]),
      replicate_getD_zero]
  refine ⟨by rw [gl, List.length_replicate], List.length_replicate _ _,
    List.length_replicate _ _, hz, replicate_getD_zero _ _, replicate_getD_zero _ _, ?_⟩
  intro u hu
  show 0 ≤ S.getD u 0 ∧ S.getD u 0 ≤ _
  rw [hsum]
  rcases Nat.eq_zero_or_pos u with rfl | hpos
  · rw [hz]; exact ⟨le_refl _, hd0⟩
  · have hlt : u < S.length := by rw [gl]; exact gb u hpos hu
    have e := ge u
    rw [if_pos ⟨hpos, hu⟩, getElem?_eq_getD hlt] at e
    obtain ⟨a, c⟩ := revenueZ_bounds d0 (bidRow inst 0) u _ e.symm
    exact ⟨c hd0 (fun y hy => hbids y (List.mem_of_mem_drop hy)), a⟩

/-- The invariant holds for the buffers at the end of every successful run. -/
theorem solve_revenueZ_inv (inst : Instance) (d0 : Int) (S : List Int) (B : Buffers)
    (hk : inst.items ≤ 30) (hn : inst.bidders ≠ 0)
    (hbud : ∀ x ∈ inst.budget, 0 ≤ x) (hbids : ∀ x ∈ inst.bids, 0 ≤ x)
    (hd : inst.budget[0]? = some d0)
    (hg : generateZ (List.replicate (2 ^ inst.items) 0) inst.bidders d0 (bidRow inst 0) = some S)
    (hf : (List.range' 1 (inst.bidders - 1)).foldlM (foldStepZ inst)
        ⟨S, List.replicate (2 ^ inst.items) 0, List.replicate (2 ^ inst.items) 0⟩ = some B) :
    FoldInv (2 ^ inst.items) inst.bidders inst.budget inst.bidders B := by
  have hN : 2 ^ inst.items ≤ 2 ^ 32 := Nat.pow_le_pow_right (by decide) (by omega)
  have := foldlM_range'_inv (foldStepZ inst)
    (FoldInv (2 ^ inst.items) inst.bidders inst.budget) (inst.bidders - 1) 1 _ B hf
    (generateZ_inv inst d0 S hbud hbids hd hg)
    (fun i x y _ _ hP hs => foldStepZ_inv inst _ hN hbud i x y hP hs)
  have e : 1 + (inst.bidders - 1) = inst.bidders := by omega
  rw [e] at this
  exact this

/-- A run of `solve_revenueZ` stays inside all vectors, and so returns a value,
on an instance with at most 30 items, one budget per bidder and a bid vector of
`bidders * items` entries, when there is a single bidder or at most as many
bidders as items. -/
theorem solve_revenueZ_defined (inst : Instance) (hk : inst.items ≤ 30)
    (hn : 1 ≤ inst.bidders) (hbud : inst.budget.length = inst.bidders)
    (hbids : inst.bids.length = inst.bidders * inst.items)
    (hsh : inst.bidders = 1 ∨ inst.bidders ≤ inst.items) :
    ∃ r, solve_revenueZ inst = some r := by
  have hpow : inst.items < 2 ^ inst.items := Nat.lt_two_pow inst.items
  have hone : 1 ≤ 2 ^ inst.items := Nat.one_le_two_pow
  have hnN : inst.bidders ≤ 2 ^ inst.items := by omega
  have hn31 : inst.bidders ≤ 31 := by omega
  have hn2 : inst.bidders ≤ 2 ^ inst.bidders := le_of_lt (Nat.lt_two_pow inst.bidders)
  have hN : 2 ^ inst.items ≤ 2 ^ 32 := Nat.pow_le_pow_right (by decide) (by omega)
  have hrow : ∀ i, i < inst.bidders → 2 ≤ inst.bidders →
      inst.bidders ≤ (bidRow inst i).length := by
    intro i hi h2
    unfold bidRow
    rw [List.length_drop, hbids]
    have a : i * inst.bidders ≤ (inst.bidders - 1) * inst.bidders :=
      Nat.mul_le_mul_right _ (by omega)
    have c : inst.bidders * inst.bidders ≤ inst.bidders * inst.items :=
      Nat.mul_le_mul_left _ (by omega)
    have e : inst.bidders * inst.bidders = (inst.bidders - 1) * inst.bidders + inst.bidders := by
      have := Nat.succ_mul (inst.bidders - 1) inst.bidders
      have e2 : (inst.bidders - 1).succ = inst.bidders := by omega
      rw [e2] at this
      exact this
    omega
  have hd : inst.budget[0]? = some (inst.budget.getD 0 0) := getElem?_eq_getD (by omega)
  obtain ⟨S, hg, hgl, _⟩ := generateZ_spec (List.replicate (2 ^ inst.items) 0) inst.bidders
    inst.bidders (inst.budget.getD 0 0) (bidRow inst 0) hn31 hn2
    (by rw [List.length_replicate]; exact hnN) (hrow 0 (by omega))
  rw [List.length_replicate] at hgl
  obtain ⟨B, hf, hB⟩ := foldlM_range'_defined (foldStepZ inst)
    (fun B => B.S.length = 2 ^ inst.items ∧ B.Sp.length = 2 ^ inst.items ∧
      B.Sr.length = 2 ^ inst.items)
    (inst.bidders - 1) 1 ⟨S, List.replicate (2 ^ inst.items) 0, List.replicate (2 ^ inst.items) 0⟩
    ⟨hgl, List.length_replicate _ _, List.length_replicate _ _⟩ (by
      intro i x _ hi hx
      obtain ⟨x1, x2, x3⟩ := hx
      have hdi : inst.budget[i]? = some (inst.budget.getD i 0) := getElem?_eq_getD (by omega)
      obtain ⟨Sp', hg', hgl', _⟩ := generateZ_spec x.Sp inst.bidders inst.bidders
        (inst.budget.getD i 0) (bidRow inst i) hn31 hn2 (by omega) (hrow i (by omega))
      obtain ⟨Sr', hm', hml', _⟩ := mergeZ_spec x.Sr x.S Sp' inst.bidders (by omega) (by omega)
        (by omega) (by omega)
      refine ⟨⟨Sr', Sp', x.S⟩, ?_, hml'.trans x3, hgl'.trans x2, x1⟩
      unfold foldStepZ
      rw [hdi]
      simp only
      rw [hg']
      simp only
      rw [hm'])
  have hlast : B.S[inst.bidders - 1]? = some (B.S.getD (inst.bidders - 1) 0) :=
    getElem?_eq_getD (by omega)
  refine ⟨B.S.getD (inst.bidders - 1) 0, ?_⟩
  unfold solve_revenueZ
  rw [if_neg (by omega)]
  simp only
  rw [hd]
  simp only
  rw [hg]
  simp only
  rw [hf]
  simp only
  rw [if_neg (by omega), hlast]

/-- Over unbounded integers: on every instance with at least one bidder, one
budget per bidder, and non-negative budgets and bids, every value
`solve_revenueZ` returns lies between `0` and the sum of all budgets; and it
does return a value when moreover there are at most 30 items and
`bidders * items` bids, and one bidder or at most as many bidders as items (the
runs that stay inside the vectors). -/
theorem solve_revenueZ_bounds (inst : Instance) (hn : 1 ≤ inst.bidders)
    (hlen : inst.budget.length = inst.bidders)
    (hbud : ∀ x ∈ inst.budget, 0 ≤ x) (hbids : ∀ x ∈ inst.bids, 0 ≤ x) :
    (∀ r, solve_revenueZ inst = some r → 0 ≤ r ∧ r ≤ inst.budget.sum) ∧
    (inst.items ≤ 30 → inst.bids.length = inst.bidders * inst.items →
      (inst.bidders = 1 ∨ inst.bidders ≤ inst.items) → ∃ r, solve_revenueZ inst = some r) := by
  refine ⟨?_, fun hk hb hsh => solve_revenueZ_defined inst hk hn hlen hb hsh⟩
  intro r h
  obtain ⟨hk, hn0, d0, S, B, hd, hg, hf, hr⟩ := solve_revenueZ_some inst r h
  have hP := solve_revenueZ_inv inst d0 S B hk hn0 hbud hbids hd hg hf
  have := hP.bound (inst.bidders - 1) (by omega)
  rw [getD_of_getElem? hr, ← hlen, List.take_length] at this
  exact this

/-! ## The submasks visited by the inner loop of `mergeZ` -/

theorem bitCount_succ_low (k u : Nat) :
    bitCount (k + 1) u = (if u % 2 = 1 then 1 else 0) + bitCount k (u / 2) := by
  unfold bitCount
  rw [List.range_succ_eq_map, List.filter_cons, List.filter_map]
  have hf : ((fun j => u.testBit j) ∘ Nat.succ) = fun j => (u / 2).testBit j := by
    funext j
    exact Nat.testBit_succ u j
  rw [hf, Nat.testBit_zero]
  by_cases h : u % 2 = 1
  · simp [h]; omega
  · simp [h]

/-- A number is a submask of `u` exactly when its half is a submask of the half
of `u` and its lowest bit is at most the lowest bit of `u`. -/
theorem submask_iff_halves (x u : Nat) :
    Submask x u ↔ Submask (x / 2) (u / 2) ∧ x % 2 ≤ u % 2 := by
  unfold Submask
  have hd := @Nat.and_div_two x u
  have hm := and_mod_two x u
  constructor
  · intro h
    rw [h] at hd hm
    refine ⟨hd.symm, ?_⟩
    rcases Nat.mod_two_eq_zero_or_one x with ha | ha <;>
    rcases Nat.mod_two_eq_zero_or_one u with hb | hb <;> simp_all
  · intro ⟨h1, h2⟩
    rw [h1] at hd
    have hm2 : (x &&& u) % 2 = x % 2 := by
      rw [hm]
      rcases Nat.mod_two_eq_zero_or_one x with ha | ha <;>
      rcases Nat.mod_two_eq_zero_or_one u with hb | hb <;> simp_all
    omega

theorem mem_submasks (x u : Nat) : x ∈ submasks u ↔ Submask x u := by
  unfold submasks
  rw [Finset.mem_filter, Finset.mem_range]
  constructor
  · exact fun h => h.2
  · intro h
    refine ⟨?_, h⟩
    have : x &&& u ≤ u := Nat.and_le_right
    unfold Submask at h
    omega

theorem submasks_eq (u : Nat) :
    submasks u = (submasks (u / 2)).image (fun x => 2 * x) ∪
      (if u % 2 = 1 then (submasks (u / 2)).image (fun x => 2 * x + 1) else ∅) := by
  ext x
  rw [mem_submasks, submask_iff_halves, Finset.mem_union, Finset.mem_image]
  constructor
  · intro ⟨h1, h2⟩
    rcases Nat.mod_two_eq_zero_or_one x with hx | hx
    · left
      exact ⟨x / 2, (mem_submasks _ _).2 h1, by omega⟩
    · right
      have hu : u % 2 = 1 := by omega
      rw [if_pos hu, Finset.mem_image]
      exact ⟨x / 2, (mem_submasks _ _).2 h1, by omega⟩
  · rintro (⟨y, hy, rfl⟩ | h)
    · have e1 : 2 * y / 2 = y := by omega
      have e2 : 2 * y % 2 = 0 := by omega
      rw [e1, e2]
      exact ⟨(mem_submasks _ _).1 hy, Nat.zero_le _⟩
    · split at h
      · rename_i hu
        rw [Finset.mem_image] at h
        obtain ⟨y, hy, rfl⟩ := h
        have e1 : (2 * y + 1) / 2 = y := by omega
        have e2 : (2 * y + 1) % 2 = 1 := by omega
        rw [e1, e2]
        exact ⟨(mem_submasks _ _).1 hy, by omega⟩
      · simp at h

theorem card_submasks : ∀ k u, u < 2 ^ k → (submasks u).card = 2 ^ bitCount k u := by
  intro k
  induction k with
  | zero =>
    intro u hu
    have : u = 0 := by simpa using hu
    subst this
    decide
  | succ k ih =>
    intro u hu
    have hv : u / 2 < 2 ^ k := by
      rw [pow_succ] at hu
      omega
    have inj0 : Function.Injective (fun x : Nat => 2 * x) := fun a b h => by
      simp only at h; omega
    have inj1 : Function.Injective (fun x : Nat => 2 * x + 1) := fun a b h => by
      simp only at h; omega
    rw [submasks_eq, bitCount_succ_low]
    by_cases hb : u % 2 = 1
    · rw [if_pos hb, if_pos hb, Finset.card_union_of_disjoint, Finset.card_image_of_injective _ inj0,
        Finset.card_image_of_injective _ inj1, ih _ hv, pow_add]
      · omega
      · rw [Finset.disjoint_left]
        intro a h1 h2
        rw [Finset.mem_image] at h1 h2
        obtain ⟨y, _, rfl⟩ := h1
        obtain ⟨z, _, hz⟩ := h2
        omega
    · rw [if_neg hb, if_neg hb, Finset.union_empty, Finset.card_image_of_injective _ inj0,
        ih _ hv, Nat.zero_add]

/-- The inner loop of `mergeZ` started at a submask `m` of `u` with enough fuel
ends, and visits the submasks of `u` from `m` down to `0`, each once, in
strictly decreasing order. -/
theorem submaskLoop_spec (u : Nat) (hu : u < 2 ^ 32) :
    ∀ fuel m, Submask m u → m < fuel →
      ∃ l, submaskLoop u fuel m = some l ∧ l.head? = some m ∧ l.getLast? = some 0 ∧
        l.Pairwise (fun a b => b < a) ∧ ∀ x, x ∈ l ↔ (Submask x u ∧ x ≤ m) := by
  intro fuel
  induction fuel with
  | zero => intro m _ h; omega
  | succ fuel ih =>
    intro m hm hfuel
    have hmu := hm.le
    unfold submaskLoop
    rcases Nat.eq_zero_or_pos m with h0 | hpos
    · subst h0
      rw [subStep_zero hu, if_pos rfl]
      refine ⟨[0], rfl, rfl, rfl, List.pairwise_singleton _ _, ?_⟩
      intro x
      rw [List.mem_singleton]
      constructor
      · rintro rfl; exact ⟨hm, le_refl _⟩
      · intro h; omega
    · have hs : subStep u m = (m - 1) &&& u := subStep_pos hpos (by omega)
      have hlt : subStep u m < m := by
        rw [hs]
        have : (m - 1) &&& u ≤ m - 1 := Nat.and_le_left
        omega
      have hne : subStep u m ≠ u := by omega
      have hsub : Submask (subStep u m) u := by
        rw [hs]; unfold Submask
        rw [Nat.and_assoc, Nat.and_self]
      rw [if_neg hne]
      obtain ⟨l, hl, hhead, hlast, hpair, hmem⟩ := ih (subStep u m) hsub (by omega)
      rw [hl]
      refine ⟨m :: l, rfl, rfl, ?_, ?_, ?_⟩
      · cases l with
        | nil => simp at hhead
        | cons a l => rw [List.getLast?_cons_cons]; exact hlast
      · rw [List.pairwise_cons]
        exact ⟨fun x hx => lt_of_le_of_lt ((hmem x).1 hx).2 hlt, hpair⟩
      · intro x
        rw [List.mem_cons, hmem x]
        constructor
        · rintro (rfl | ⟨h1, h2⟩)
          · exact ⟨hm, le_refl _⟩
          · exact ⟨h1, by omega⟩
        · intro ⟨h1, h2⟩
          rcases Nat.eq_or_lt_of_le h2 with rfl | hlt'
          · exact Or.inl rfl
          · refine Or.inr ⟨h1, ?_⟩
            rw [hs]
            exact le_pred_and m u x hpos hm h1 hlt'

/-- What a successful round went through. -/
theorem foldStepZ_some (inst : Instance) (B B' : Buffers) (i : Nat)
    (h : foldStepZ inst B i = some B') :
    ∃ d, inst.budget[i]? = some d ∧
      generateZ B.Sp inst.bidders d (bidRow inst i) = some B'.Sp ∧
      mergeZ B.Sr inst.bidders B.S B'.Sp = some B'.S ∧ B'.Sr = B.S := by
  unfold foldStepZ at h
  cases hd : inst.budget[i]? with
  | none => rw [hd] at h; simp at h
  | some d =>
    rw [hd] at h
    simp only at h
    cases hg : generateZ B.Sp inst.bidders d (bidRow inst i) with
    | none => rw [hg] at h; simp at h
    | some Sp' =>
      rw [hg] at h
      simp only at h
      cases hm : mergeZ B.Sr inst.bidders B.S Sp' with
      | none => rw [hm] at h; simp at h
      | some Sr' =>
        rw [hm] at h
        simp only [Option.some.injEq] at h
        subst h
        exact ⟨d, rfl, hg, hm, rfl⟩

theorem generateZ_outside (T T' : List Int) (n : Nat) (d : Int) (b : List Int)
    (h : generateZ T n d b = some T') (i : Nat) (hi : ¬(1 ≤ i ∧ i < n)) : T'[i]? = T[i]? := by
  rw [(generateZ_entry T T' n d b h).2.2 i, if_neg hi]

theorem mergeZ_outside (Sr Sr' S Sp : List Int) (n : Nat)
    (h : mergeZ Sr n S Sp = some Sr') (i : Nat) (hi : ¬(1 ≤ i ∧ i < n)) : Sr'[i]? = Sr[i]? := by
  rw [(mergeZ_entry Sr Sr' S Sp n h).2.2 i, if_neg hi]

/-- Every successful round preserves the shape. -/
theorem foldStepZ_shape (inst : Instance) (N : Nat) (i : Nat) (B B' : Buffers)
    (hP : ShapeInv N inst.bidders B) (h : foldStepZ inst B i = some B') :
    ShapeInv N inst.bidders B' := by
  obtain ⟨d, _, hg, hm, hSr⟩ := foldStepZ_some inst B B' i h
  refine ⟨by rw [(mergeZ_entry _ _ _ _ _ hm).1, hP.lenSr],
    by rw [(generateZ_entry _ _ _ _ _ hg).1, hP.lenSp], by rw [hSr, hP.lenS], ?_, ?_, ?_⟩
  · intro j hj
    rw [getD_congr _ _ j (mergeZ_outside _ _ _ _ _ hm j hj)]
    exact hP.outSr j hj
  · intro j hj
    rw [getD_congr _ _ j (generateZ_outside _ _ _ _ _ hg j hj)]
    exact hP.outSp j hj
  · intro j hj
    rw [hSr]
    exact hP.outS j hj

theorem getElem?_zero_of_getD {T : List Int} {i : Nat} (hi : i < T.length)
    (h : T.getD i 0 = 0) : T[i]? = some 0 := by
  rw [getElem?_eq_getD hi, h]

/-- Whenever the loop of `revenueZ`, entered at the first set bit from position
`i` on, returns, it returns the running sum plus the bids at all set bits from
`i` on. -/
theorem revenueLoopZ_sum (b : List Int) (u k : Nat) (hk : k ≤ 31) (hu : u < 2 ^ k) :
    ∀ fuel i j r r', i ≤ k → nextSetBit u i = some j → revenueLoopZ b u fuel j r = some r' →
      r' = r + bidSumFrom b u i (k - i) := by
  intro fuel
  induction fuel with
  | zero => intro i j r r' _ _ h; simp [revenueLoopZ] at h
  | succ fuel ih =>
    intro i j r r' hik hn hl
    rcases nextSetBit_spec u i (by omega) with ⟨h1, h2⟩ | ⟨j0, h1, hij, _, hbit, hlow⟩
    · rw [h1] at hn
      injection hn with hn
      subst hn
      have hz : bidSumFrom b u i (k - i) = 0 := by
        have := bidSumFrom_skip b u (k - i) i 0 (fun j a c => h2 j a (by omega))
        rw [Nat.add_zero, bidSumFrom_zero] at this
        exact this
      unfold revenueLoopZ at hl
      rw [if_neg (by decide)] at hl
      injection hl with hl
      rw [hz, add_zero, hl]
    · rw [h1] at hn
      injection hn with hn
      subst hn
      have hjk : j0 < k := bit_lt_of_lt_two_pow hu hbit
      unfold revenueLoopZ at hl
      rw [if_pos (Int.natCast_nonneg j0), Int.toNat_natCast] at hl
      cases hb : b[j0]? with
      | none => rw [hb] at hl; simp at hl
      | some x =>
        rw [hb] at hl
        simp only at hl
        cases hn' : nextSetBit u (j0 + 1) with
        | none => rw [hn'] at hl; simp at hl
        | some j' =>
          rw [hn'] at hl
          simp only at hl
          have := ih (j0 + 1) j' (r + x) r' (by omega) hn' hl
          have hsum : bidSumFrom b u i (k - i) = x + bidSumFrom b u (j0 + 1) (k - (j0 + 1)) := by
            have e1 : k - i = (j0 - i) + (k - j0) := by omega
            have e2 : i + (j0 - i) = j0 := by omega
            have e3 : k - j0 = (k - (j0 + 1)) + 1 := by omega
            rw [e1, bidSumFrom_skip b u (j0 - i) i (k - j0) (fun j' a c => hlow j' a (by omega)),
              e2, e3, bidSumFrom_succ, hbit, getD_of_getElem? hb]
            simp
          rw [this, hsum, add_assoc]

/-- Whenever `revenueZ` returns on a word of at most `k ≤ 31` bits, it returns the
capped sum of the bids at the set bits. -/
theorem revenueZ_sum (d : Int) (b : List Int) (u k : Nat) (hk : k ≤ 31) (hu : u < 2 ^ k)
    (x : Int) (h : revenueZ d b u = some x) : x = min (bidSum k b u) d := by
  unfold revenueZ at h
  cases hn : nextSetBit u 0 with
  | none => rw [hn] at h; simp at h
  | some j =>
    rw [hn] at h
    simp only at h
    cases hl : revenueLoopZ b u 33 j 0 with
    | none => rw [hl] at h; simp at h
    | some r =>
      rw [hl] at h
      simp only [Option.some.injEq] at h
      have := revenueLoopZ_sum b u k hk hu 33 0 j 0 r (Nat.zero_le _) hn hl
      rw [zero_add, Nat.sub_zero, ← bidSum_eq_from] at this
      rw [← h, this]

theorem bitCount_succ (k u : Nat) :
    bitCount (k + 1) u = bitCount k u + (if u.testBit k then 1 else 0) := by
  unfold bitCount
  rw [List.range_succ, List.filter_append, List.length_append]
  congr 1
  rw [List.filter_cons]
  split <;> simp

theorem bitCount_le (k u : Nat) : bitCount k u ≤ k := by
  unfold bitCount
  have := List.length_filter_le (fun j => u.testBit j) (List.range k)
  rw [List.length_range] at this
  exact this

/-- The set bits of a submask and of its complement inside `u` add up to the set
bits of `u`. -/
theorem bitCount_split {u m : Nat} (hu : u < 2 ^ 32) (hm : Submask m u) :
    ∀ k, bitCount k m + bitCount k (restOf u m) = bitCount k u := by
  intro k
  induction k with
  | zero => simp [bitCount]
  | succ k ih =>
    rw [bitCount_succ, bitCount_succ, bitCount_succ, testBit_restOf_of_le hu hm.le]
    have := (submask_iff_testBit m u).1 hm k
    cases h1 : m.testBit k <;> cases h2 : u.testBit k <;> simp_all <;> omega

/-- The bid sum over a subset is at most the number of its items times a common
upper bound of the bids. -/
theorem bidSum_le (b : List Int) (M : Int) (hM : 0 ≤ M) (hb : ∀ x ∈ b, x ≤ M) (u : Nat) :
    ∀ k, bidSum k b u ≤ (bitCount k u : Int) * M := by
  intro k
  induction k with
  | zero => simp [bidSum, bitCount]
  | succ k ih =>
    rw [bidSum_succ, bitCount_succ]
    have hx : b.getD k 0 ≤ M := by
      rw [List.getD_eq_getElem?_getD]
      cases h : b[k]? with
      | none => exact hM
      | some x => exact hb x (List.getElem?_mem h)
    split
    · push_cast
      rw [add_mul, one_mul]
      omega
    · simp only [Nat.add_zero, add_zero]
      exact ih

theorem add32_eq {a c : Int} (h1 : INT_MIN ≤ a + c) (h2 : a + c ≤ INT_MAX) :
    add32 a c = some (a + c) := by
  unfold add32
  rw [if_pos ⟨h1, h2⟩]

theorem INT_MIN_le_of_nonneg {x : Int} (h : 0 ≤ x) : INT_MIN ≤ x := by
  have : INT_MIN ≤ 0 := by decide
  exact le_trans this h

/-- Whenever the loop of `revenueZ` returns a sum that fits in 32 bits, starting
from a non-negative running sum over non-negative bids, the 32-bit loop returns
the same sum. -/
theorem revenueLoop32_eq (b : List Int) (hpos : ∀ x ∈ b, 0 ≤ x) (u : Nat) :
    ∀ fuel j r r', revenueLoopZ b u fuel j r = some r' → 0 ≤ r → r' ≤ INT_MAX →
      revenueLoop32 b u fuel j r = some r' := by
  intro fuel
  induction fuel with
  | zero => intro j r r' h; simp [revenueLoopZ] at h
  | succ fuel ih =>
    intro j r r' h hr hmax
    unfold revenueLoopZ at h
    unfold revenueLoop32
    split
    · rename_i hj
      rw [if_pos hj] at h
      cases hb : b[j.toNat]? with
      | none => rw [hb] at h; simp at h
      | some x =>
        rw [hb] at h
        simp only at h ⊢
        cases hn : nextSetBit u (j.toNat + 1) with
        | none => rw [hn] at h; simp at h
        | some j' =>
          rw [hn] at h
          simp only at h ⊢
          have hx : 0 ≤ x := hpos x (List.getElem?_mem hb)
          have hle := revenueLoopZ_ge b hpos u fuel j' (r + x) r' h
          rw [add32_eq (INT_MIN_le_of_nonneg (by omega)) (by omega)]
          exact ih j' (r + x) r' h (by omega) hmax
    · rename_i hj
      rw [if_neg hj] at h
      exact h

/-- Whenever `revenueZ` returns on a word of at most `k ≤ 31` bits, with
non-negative bids of at most `M` and `k * M` inside 32 bits, `revenue32`
returns the same value, which lies between `0` and the number of set bits
times `M`. -/
theorem revenue32_eq (d : Int) (b : List Int) (u k : Nat) (M : Int) (hk : k ≤ 31)
    (hu : u < 2 ^ k) (hd : 0 ≤ d) (hM : 0 ≤ M) (hb : ∀ x ∈ b, 0 ≤ x ∧ x ≤ M)
    (hkM : (k : Int) * M ≤ INT_MAX) (x : Int) (h : revenueZ d b u = some x) :
    revenue32 d b u = some x ∧ 0 ≤ x ∧ x ≤ (bitCount k u : Int) * M := by
  have hpos : ∀ y ∈ b, 0 ≤ y := fun y hy => (hb y hy).1
  have hsum := bidSum_le b M hM (fun y hy => (hb y hy).2) u k
  have hcnt : (bitCount k u : Int) * M ≤ (k : Int) * M :=
    mul_le_mul_of_nonneg_right (by exact_mod_cast bitCount_le k u) hM
  have hx := revenueZ_sum d b u k hk hu x h
  refine ⟨?_, ?_, ?_⟩
  · unfold revenueZ at h
    unfold revenue32
    cases hn : nextSetBit u 0 with
    | none => rw [hn] at h; simp at h
    | some j =>
      rw [hn] at h
      simp only at h ⊢
      cases hl : revenueLoopZ b u 33 j 0 with
      | none => rw [hl] at h; simp at h
      | some r =>
        rw [hl] at h
        have hr := revenueLoopZ_sum b u k hk hu 33 0 j 0 r (Nat.zero_le _) hn hl
        rw [zero_add, Nat.sub_zero, ← bidSum_eq_from] at hr
        rw [revenueLoop32_eq b hpos u 33 j 0 r hl (le_refl _) (by rw [hr]; omega)]
        exact h
  · rw [hx]
    exact le_min (bidSum_nonneg b hpos u k) hd
  · rw [hx]
    exact le_trans (min_le_left _ _) hsum

theorem foldlM_congr_mem {β : Type} (f g : β → Nat → Option β) :
    ∀ (l : List Nat) (c : β), (∀ x u, u ∈ l → f x u = g x u) → l.foldlM f c = l.foldlM g c := by
  intro l
  induction l with
  | nil => intro c _; rfl
  | cons a l ih =>
    intro c h
    rw [List.foldlM_cons, List.foldlM_cons, h c a (List.mem_cons_self _ _)]
    congr 1
    funext y
    exact ih y (fun x u hu => h x u (List.mem_cons_of_mem _ hu))

/-- Whenever `generateZ` succeeds on a table of size `2 ^ k`, under the bounds
of `revenue32_eq`, `generate32` writes the same table, whose entries below the
bound lie between `0` and the number of set bits times `M`. -/
theorem generate32_eq (T T' : List Int) (n k : Nat) (d : Int) (b : List Int) (M : Int)
    (h : generateZ T n d b = some T') (hk : k ≤ 31) (hT : T.length = 2 ^ k)
    (h0 : T.getD 0 0 = 0) (hd : 0 ≤ d) (hM : 0 ≤ M) (hb : ∀ x ∈ b, 0 ≤ x ∧ x ≤ M)
    (hkM : (k : Int) * M ≤ INT_MAX) :
    generate32 T n d b = some T' ∧
      ∀ u, u < n → 0 ≤ T'.getD u 0 ∧ T'.getD u 0 ≤ (bitCount k u : Int) * M := by
  obtain ⟨gl, gb, ge⟩ := generateZ_entry T T' n d b h
  have hval : ∀ u, 1 ≤ u → u < n → revenueZ d b u = some (T'.getD u 0) ∧ u < 2 ^ k := by
    intro u h1 h2
    have hlt : u < T'.length := by rw [gl]; exact gb u h1 h2
    have e := ge u
    rw [if_pos ⟨h1, h2⟩, getElem?_eq_getD hlt] at e
    exact ⟨e.symm, by rw [← hT, ← gl]; exact hlt⟩
  refine ⟨?_, ?_⟩
  · unfold generate32
    unfold generateZ at h
    rw [← h]
    apply foldlM_congr_mem
    intro x u hu
    rw [mem_range'_one] at hu
    obtain ⟨hr, hu2⟩ := hval u hu.1 hu.2
    unfold generateStep32 generateStepZ
    rw [(revenue32_eq d b u k M hk hu2 hd hM hb hkM _ hr).1, hr]
  · intro u hu
    rcases Nat.eq_zero_or_pos u with rfl | hpos
    · rw [getD_congr T T' 0 (by rw [ge 0, if_neg (by omega)]), h0]
      exact ⟨le_refl _, mul_nonneg (Int.natCast_nonneg _) hM⟩
    · obtain ⟨hr, hu2⟩ := hval u hpos hu
      exact (revenue32_eq d b u k M hk hu2 hd hM hb hkM _ hr).2

theorem subStep_submask (u m : Nat) : Submask (subStep u m) u := by
  unfold subStep Submask
  rw [Nat.and_assoc, Nat.and_self]

/-- When every split sum of `u` fits in 32 bits, the 32-bit submask loop agrees
with the loop over unbounded integers. -/
theorem mergeLoop32_eq (S Sp : List Int) (u : Nat)
    (hsum : ∀ m, Submask m u → INT_MIN ≤ S.getD m 0 + Sp.getD (restOf u m) 0 ∧
      S.getD m 0 + Sp.getD (restOf u m) 0 ≤ INT_MAX) :
    ∀ fuel m r, Submask m u → mergeLoop32 S Sp u fuel m r = mergeLoopZ S Sp u fuel m r := by
  intro fuel
  induction fuel with
  | zero => intro m r _; rfl
  | succ fuel ih =>
    intro m r hm
    unfold mergeLoop32 mergeLoopZ
    cases hS : S[m]? with
    | none => rfl
    | some a =>
      cases hSp : Sp[restOf u m]? with
      | none => rfl
      | some c =>
        simp only
        have := hsum m hm
        rw [getD_of_getElem? hS, getD_of_getElem? hSp] at this
        rw [add32_eq this.1 this.2]
        simp only
        split
        · rfl
        · exact ih _ _ (subStep_submask u m)

theorem mergeEntry32_eq (S Sp : List Int) (u : Nat)
    (hsum : ∀ m, Submask m u → INT_MIN ≤ S.getD m 0 + Sp.getD (restOf u m) 0 ∧
      S.getD m 0 + Sp.getD (restOf u m) 0 ≤ INT_MAX) :
    mergeEntry32 S Sp u = mergeEntryZ S Sp u := by
  unfold mergeEntry32 mergeEntryZ
  cases S[u]? with
  | none => rfl
  | some r => exact mergeLoop32_eq S Sp u hsum _ _ _ (submask_refl u)

theorem merge32_eq (Sr S Sp : List Int) (n : Nat)
    (hsum : ∀ u, 1 ≤ u → u < n → ∀ m, Submask m u →
      INT_MIN ≤ S.getD m 0 + Sp.getD (restOf u m) 0 ∧
      S.getD m 0 + Sp.getD (restOf u m) 0 ≤ INT_MAX) :
    merge32 Sr n S Sp = mergeZ Sr n S Sp := by
  unfold merge32 mergeZ
  apply foldlM_congr_mem
  intro x u hu
  rw [mem_range'_one] at hu
  unfold mergeStep32 mergeStepZ
  rw [mergeEntry32_eq S Sp u (hsum u hu.1 hu.2)]

/-- A round of the fold that succeeds from a state within the bounds also
succeeds in 32-bit `int`, with the same buffers, and stays within the bounds. -/
theorem foldStep32_eq (inst : Instance) (M : Int) (hk : inst.items ≤ 30)
    (hbud : ∀ x ∈ inst.budget, 0 ≤ x) (hbids : ∀ x ∈ inst.bids, 0 ≤ x ∧ x ≤ M)
    (hM : 0 ≤ M) (hkM : (inst.items : Int) * M ≤ INT_MAX) (i : Nat) (B B' : Buffers)
    (hQ : SumInv inst.items inst.bidders M B) (hs : foldStepZ inst B i = some B') :
    foldStep32 inst B i = some B' ∧ SumInv inst.items inst.bidders M B' := by
  obtain ⟨d, hd, hg, hm, hSr⟩ := foldStepZ_some inst B B' i hs
  have hP := hQ.shape
  have hN : 2 ^ inst.items ≤ 2 ^ 32 := Nat.pow_le_pow_right (by decide) (by omega)
  obtain ⟨hg32, hSp⟩ := generate32_eq B.Sp B'.Sp inst.bidders inst.items d (bidRow inst i) M hg
    (by omega) hP.lenSp (hP.outSp 0 (by omega)) (hbud d (List.getElem?_mem hd)) hM
    (fun x hx => hbids x (List.mem_of_mem_drop hx)) hkM
  obtain ⟨ml, mb, me⟩ := mergeZ_entry B.Sr B'.S B.S B'.Sp inst.bidders hm
  have hlSp : B'.Sp.length = 2 ^ inst.items := by
    rw [(generateZ_entry _ _ _ _ _ hg).1, hP.lenSp]
  have hsplit : ∀ u, u < inst.bidders → u < 2 ^ inst.items → ∀ m, Submask m u →
      0 ≤ B.S.getD m 0 + B'.Sp.getD (restOf u m) 0 ∧
      B.S.getD m 0 + B'.Sp.getD (restOf u m) 0 ≤ (bitCount inst.items u : Int) * M := by
    intro u hu huN m hmu
    have a := hQ.bound m (lt_of_le_of_lt hmu.le hu)
    have c := hSp (restOf u m) (lt_of_le_of_lt (restOf_le u m) hu)
    have e := bitCount_split (lt_of_lt_of_le huN hN) hmu inst.items
    have e' : (bitCount inst.items u : Int) * M =
        (bitCount inst.items m : Int) * M + (bitCount inst.items (restOf u m) : Int) * M := by
      rw [← e]
      push_cast
      rw [add_mul]
    omega
  have hcnt : ∀ u, (bitCount inst.items u : Int) * M ≤ INT_MAX := fun u =>
    le_trans (mul_le_mul_of_nonneg_right (by exact_mod_cast bitCount_le inst.items u) hM) hkM
  have hm32 : merge32 B.Sr inst.bidders B.S B'.Sp = some B'.S := by
    rw [merge32_eq B.Sr B.S B'.Sp inst.bidders (by
      intro u h1 h2 m hmu
      have huN : u < 2 ^ inst.items := by rw [← hP.lenSr]; exact mb u h1 h2
      have := hsplit u h2 huN m hmu
      exact ⟨INT_MIN_le_of_nonneg this.1, le_trans this.2 (hcnt u)⟩)]
    exact hm
  refine ⟨?_, foldStepZ_shape inst _ i B B' hP hs, ?_⟩
  · unfold foldStep32
    rw [hd]
    simp only
    rw [hg32]
    simp only
    rw [hm32]
    simp only
    rw [← hSr]
  · intro u hu
    rcases Nat.eq_zero_or_pos u with rfl | hpos
    · rw [getD_congr _ _ 0 (mergeZ_outside _ _ _ _ _ hm 0 (by omega)), hP.outSr 0 (by omega)]
      exact ⟨le_refl _, mul_nonneg (Int.natCast_nonneg _) hM⟩
    · have huN : u < 2 ^ inst.items := by rw [← hP.lenSr]; exact mb u hpos hu
      obtain ⟨w, hw, hge, _, hatt⟩ := mergeEntryZ_spec B.S B'.Sp u (by omega)
        (by rw [hP.lenS]; exact huN) (by rw [hlSp]; exact huN)
      have e : B'.S[u]? = some w := by rw [me u, if_pos ⟨hpos, hu⟩, hw]
      rw [getD_of_getElem? e]
      have hSu := hQ.bound u hu
      refine ⟨by omega, ?_⟩
      rcases hatt with h1 | ⟨m, hmu, h1⟩
      · omega
      · have := (hsplit u hu huN m hmu).2
        unfold splitValue at h1
        omega

/-- A second step function that agrees with the first on every state of a
successful fold reaches the same final state. -/
theorem foldlM_range'_sim {β : Type} (f g : β → Nat → Option β) (Q : β → Prop) :
    ∀ len lo c c', (List.range' lo len).foldlM f c = some c' → Q c →
      (∀ i x y, Q x → f x i = some y → g x i = some y ∧ Q y) →
      (List.range' lo len).foldlM g c = some c' := by
  intro len
  induction len with
  | zero => intro lo c c' h _ _; exact h
  | succ len ih =>
    intro lo c c' h hQ hstep
    rw [List.range'_succ, List.foldlM_cons] at h ⊢
    cases hf : f c lo with
    | none => rw [hf] at h; simp at h
    | some y =>
      rw [hf] at h
      obtain ⟨hg, hQy⟩ := hstep lo c y hQ hf
      rw [hg]
      exact ih (lo + 1) y c' h hQy hstep

/-- A sum that leaves the `int` range is caught: with two bids of `2 ^ 30` for
one bidder the exact sum at `u = 3` is `2 ^ 31`, above the cap `2 ^ 31 - 1`, and
`revenue32` returns nothing. -/
theorem revenue32_overflow :
    revenueZ 2147483647 [2 ^ 30, 2 ^ 30] 3 = some 2147483647 ∧
    revenue32 2147483647 [2 ^ 30, 2 ^ 30] 3 = none := by
  decide


/-! ## The structure of the 32-bit computation -/

theorem generateStep_eq (d : Int) (b T : List Int) (u : Nat) :
    generateStep d b T u = (revenue d b u).bind (store T u) := by
  unfold generateStep
  cases revenue d b u <;> rfl

/-- Whenever `generate` succeeds, the entry at a visited index is what `revenue`
returned there, every visited index is inside the table, and nothing else
changed. -/
theorem generate_entry (T T' : List Int) (n : Nat) (d : Int) (b : List Int)
    (h : generate T n d b = some T') :
    T'.length = T.length ∧ (∀ u, 1 ≤ u → u < n → u < T.length) ∧
      ∀ i, T'[i]? = if 1 ≤ i ∧ i < n then revenue d b i else T[i]? := by
  have hs := foldlM_store_some (revenue d b) (generateStep d b) (generateStep_eq d b)
    (List.range' 1 (n - 1)) T T' h
  obtain ⟨T2, h1, h2, h3⟩ := foldlM_store (revenue d b) (generateStep d b)
    (generateStep_eq d b) (List.range' 1 (n - 1)) T hs
  have e : T2 = T' := Option.some.inj (h1.symm.trans h)
  subst e
  refine ⟨h2, fun u a c => (hs u (mem_range'_one.2 ⟨a, c⟩)).1, fun i => ?_⟩
  rw [h3 i]
  simp only [mem_range'_one]

theorem mergeStep_eq (S Sp T : List Int) (u : Nat) :
    mergeStep S Sp T u = (mergeEntry S Sp u).bind (store T u) := by
  unfold mergeStep
  cases mergeEntry S Sp u <;> rfl

/-- Whenever `merge` succeeds, the entry at a visited index is what `mergeEntry`
returned there, every visited index is inside the buffer, and nothing else
changed. -/
theorem merge_entry (Sr Sr' S Sp : List Int) (n : Nat) (h : merge Sr n S Sp = some Sr') :
    Sr'.length = Sr.length ∧ (∀ u, 1 ≤ u → u < n → u < Sr.length) ∧
      ∀ i, Sr'[i]? = if 1 ≤ i ∧ i < n then mergeEntry S Sp i else Sr[i]? := by
  have hs := foldlM_store_some (mergeEntry S Sp) (mergeStep S Sp) (mergeStep_eq S Sp)
    (List.range' 1 (n - 1)) Sr Sr' h
  obtain ⟨T2, h1, h2, h3⟩ := foldlM_store (mergeEntry S Sp) (mergeStep S Sp)
    (mergeStep_eq S Sp) (List.range' 1 (n - 1)) Sr hs
  have e : T2 = Sr' := Option.some.inj (h1.symm.trans h)
  subst e
  refine ⟨h2, fun u a c => (hs u (mem_range'_one.2 ⟨a, c⟩)).1, fun i => ?_⟩
  rw [h3 i]
  simp only [mem_range'_one]

theorem generate_outside (T T' : List Int) (n : Nat) (d : Int) (b : List Int)
    (h : generate T n d b = some T') (i : Nat) (hi : ¬(1 ≤ i ∧ i < n)) : T'[i]? = T[i]? := by
  rw [(generate_entry T T' n d b h).2.2 i, if_neg hi]

theorem merge_outside (Sr Sr' S Sp : List Int) (n : Nat)
    (h : merge Sr n S Sp = some Sr') (i : Nat) (hi : ¬(1 ≤ i ∧ i < n)) : Sr'[i]? = Sr[i]? := by
  rw [(merge_entry Sr Sr' S Sp n h).2.2 i, if_neg hi]

/-- What a successful round went through. -/
theorem foldStep_some (inst : Instance) (B B' : Buffers) (i : Nat)
    (h : foldStep inst B i = some B') :
    ∃ d, inst.budget[i]? = some d ∧
      generate B.Sp inst.bidders d (bidRow inst i) = some B'.Sp ∧
      merge B.Sr inst.bidders B.S B'.Sp = some B'.S ∧ B'.Sr = B.S := by
  unfold foldStep at h
  cases hd : inst.budget[i]? with
  | none => rw [hd] at h; simp at h
  | some d =>
    rw [hd] at h
    simp only at h
    cases hg : generate B.Sp inst.bidders d (bidRow inst i) with
    | none => rw [hg] at h; simp at h
    | some Sp' =>
      rw [hg] at h
      simp only at h
      cases hm : merge B.Sr inst.bidders B.S Sp' with
      | none => rw [hm] at h; simp at h
      | some Sr' =>
        rw [hm] at h
        simp only [Option.some.injEq] at h
        subst h
        exact ⟨d, rfl, hg, hm, rfl⟩

/-- What a successful run of `solve_revenue` went through. -/
theorem solve_revenue_some (inst : Instance) (r : Int) (h : solve_revenue inst = some r) :
    inst.items ≤ 30 ∧ inst.bidders ≠ 0 ∧ ∃ d0 S B, inst.budget[0]? = some d0 ∧
      generate (List.replicate (2 ^ inst.items) 0) inst.bidders d0 (bidRow inst 0) = some S ∧
      (List.range' 1 (inst.bidders - 1)).foldlM (foldStep inst)
        ⟨S, List.replicate (2 ^ inst.items) 0, List.replicate (2 ^ inst.items) 0⟩ = some B ∧
      B.S[inst.bidders - 1]? = some r := by
  unfold solve_revenue at h
  split at h
  · simp at h
  · rename_i hk
    simp only at h
    cases hd : inst.budget[0]? with
    | none => rw [hd] at h; simp at h
    | some d0 =>
      rw [hd] at h
      simp only at h
      cases hg : generate (List.replicate (2 ^ inst.items) 0) inst.bidders d0 (bidRow inst 0) with
      | none => rw [hg] at h; simp at h
      | some S =>
        rw [hg] at h
        simp only at h
        cases hf : (List.range' 1 (inst.bidders - 1)).foldlM (foldStep inst)
            ⟨S, List.replicate (2 ^ inst.items) 0, List.replicate (2 ^ inst.items) 0⟩ with
        | none => rw [hf] at h; simp at h
        | some B =>
          rw [hf] at h
          simp only at h
          split at h
          · simp at h
          · rename_i hn
            exact ⟨by omega, hn, d0, S, B, rfl, hg, hf, h⟩

/-- What entering the loop went through. -/
theorem initBuffers_some (inst : Instance) (B0 : Buffers) (h : initBuffers inst = some B0) :
    inst.items ≤ 30 ∧ ∃ d0, inst.budget[0]? = some d0 ∧
      generate (List.replicate (2 ^ inst.items) 0) inst.bidders d0 (bidRow inst 0) = some B0.S ∧
      B0.Sp = List.replicate (2 ^ inst.items) 0 ∧ B0.Sr = List.replicate (2 ^ inst.items) 0 := by
  unfold initBuffers at h
  split at h
  · simp at h
  · rename_i hk
    cases hd : inst.budget[0]? with
    | none => rw [hd] at h; simp at h
    | some d0 =>
      rw [hd] at h
      simp only at h
      cases hg : generate (List.replicate (2 ^ inst.items) 0) inst.bidders d0 (bidRow inst 0) with
      | none => rw [hg] at h; simp at h
      | some S =>
        rw [hg] at h
        simp only [Option.some.injEq] at h
        subst h
        exact ⟨by omega, d0, rfl, hg, rfl, rfl⟩

/-- The function `solve_revenue` returns the entry at index `n - 1` of the
accumulator reached after `n - 1` rounds. -/
theorem solve_revenue_eq_runRounds (inst : Instance) :
    solve_revenue inst =
      match runRounds inst (inst.bidders - 1) with
      | none => none
      | some B => if inst.bidders = 0 then none else B.S[inst.bidders - 1]? := by
  unfold solve_revenue runRounds initBuffers
  split
  · rfl
  · simp only
    cases inst.budget[0]? with
    | none => rfl
    | some d0 =>
      simp only
      cases generate (List.replicate (2 ^ inst.items) 0) inst.bidders d0 (bidRow inst 0) with
      | none => rfl
      | some S => rfl

/-- A property that holds when the loop is entered and that every successful
round preserves holds in every state the fold reaches. -/
theorem runRounds_inv (inst : Instance) (Q : Buffers → Prop)
    (hinit : ∀ B0, initBuffers inst = some B0 → Q B0)
    (hstep : ∀ i B B', Q B → foldStep inst B i = some B' → Q B') :
    ∀ t B, runRounds inst t = some B → Q B := by
  intro t B h
  unfold runRounds at h
  cases h0 : initBuffers inst with
  | none => rw [h0] at h; simp at h
  | some B0 =>
    rw [h0] at h
    simp only at h
    exact foldlM_range'_inv (foldStep inst) (fun _ => Q) t 1 B0 B h (hinit B0 h0)
      (fun i x y _ _ hx hs => hstep i x y hx hs)

/-- The shape holds when the loop is entered. -/
theorem initBuffers_shape (inst : Instance) (B0 : Buffers) (h : initBuffers inst = some B0) :
    ShapeInv (2 ^ inst.items) inst.bidders B0 := by
  obtain ⟨_, d0, _, hg, hSp, hSr⟩ := initBuffers_some inst B0 h
  have hl := (generate_entry _ _ _ _ _ hg).1
  rw [List.length_replicate] at hl
  refine ⟨hl, by rw [hSp, List.length_replicate], by rw [hSr, List.length_replicate], ?_,
    fun i _ => by rw [hSp]; exact replicate_getD_zero _ _,
    fun i _ => by rw [hSr]; exact replicate_getD_zero _ _⟩
  intro i hi
  rw [getD_congr _ _ i (generate_outside _ _ _ _ _ hg i hi)]
  exact replicate_getD_zero _ _

/-- Every successful round preserves the shape. -/
theorem foldStep_shape (inst : Instance) (N : Nat) (i : Nat) (B B' : Buffers)
    (hP : ShapeInv N inst.bidders B) (h : foldStep inst B i = some B') :
    ShapeInv N inst.bidders B' := by
  obtain ⟨d, _, hg, hm, hSr⟩ := foldStep_some inst B B' i h
  refine ⟨by rw [(merge_entry _ _ _ _ _ hm).1, hP.lenSr],
    by rw [(generate_entry _ _ _ _ _ hg).1, hP.lenSp], by rw [hSr, hP.lenS], ?_, ?_, ?_⟩
  · intro j hj
    rw [getD_congr _ _ j (merge_outside _ _ _ _ _ hm j hj)]
    exact hP.outSr j hj
  · intro j hj
    rw [getD_congr _ _ j (generate_outside _ _ _ _ _ hg j hj)]
    exact hP.outSp j hj
  · intro j hj
    rw [hSr]
    exact hP.outS j hj

/-- The shape holds in every state the fold reaches. -/
theorem runRounds_shape (inst : Instance) (t : Nat) (B : Buffers)
    (h : runRounds inst t = some B) : ShapeInv (2 ^ inst.items) inst.bidders B :=
  runRounds_inv inst (ShapeInv (2 ^ inst.items) inst.bidders) (initBuffers_shape inst)
    (fun i B B' hP hs => foldStep_shape inst _ i B B' hP hs) t B h

theorem mergeLoop_ge (S Sp : List Int) (u : Nat) :
    ∀ fuel m r v, mergeLoop S Sp u fuel m r = some v → r ≤ v := by
  intro fuel
  induction fuel with
  | zero => intro m r v h; simp [mergeLoop] at h
  | succ fuel ih =>
    intro m r v h
    unfold mergeLoop at h
    split at h
    · rename_i a c _ _
      split at h
      · injection h with h
        rw [← h]
        exact le_max_left _ _
      · exact le_trans (le_max_left _ _) (ih _ _ _ h)
    · simp at h

/-- Whatever `mergeEntry` returns at `u` is at least `S[u]`. -/
theorem mergeEntry_ge (S Sp : List Int) (u : Nat) (v : Int) (h : mergeEntry S Sp u = some v) :
    S.getD u 0 ≤ v := by
  unfold mergeEntry at h
  cases hS : S[u]? with
  | none => rw [hS] at h; simp at h
  | some r =>
    rw [hS] at h
    simp only at h
    rw [getD_of_getElem? hS]
    exact mergeLoop_ge S Sp u _ _ _ _ h

/-- The loop of `merge` runs its body exactly at the values `submaskLoop` lists. -/
theorem mergeLoop_eq_foldlM (S Sp : List Int) (u : Nat) :
    ∀ fuel m r l, submaskLoop u fuel m = some l →
      mergeLoop S Sp u fuel m r = l.foldlM (mergeBody S Sp u) r := by
  intro fuel
  induction fuel with
  | zero => intro m r l h; simp [submaskLoop] at h
  | succ fuel ih =>
    intro m r l h
    unfold submaskLoop at h
    unfold mergeLoop
    split at h
    · rename_i heq
      injection h with h
      subst h
      rw [List.foldlM_cons]
      unfold mergeBody
      cases S[m]? <;> cases Sp[restOf u m]? <;> simp [heq]
    · rename_i hne
      cases hl : submaskLoop u fuel (subStep u m) with
      | none => rw [hl] at h; simp at h
      | some l' =>
        rw [hl] at h
        injection h with h
        subst h
        rw [List.foldlM_cons]
        unfold mergeBody
        cases S[m]? <;> cases Sp[restOf u m]? <;> simp [hne]
        exact ih _ _ _ hl

/-- With a single bidder both loops of `solve_revenue` are empty and the result
is the untouched entry `S[0] = 0`. -/
theorem solve_revenue_one_bidder (inst : Instance) (hn : inst.bidders = 1)
    (hk : inst.items ≤ 30) (hb : inst.budget ≠ []) : solve_revenue inst = some 0 := by
  have hd : inst.budget[0]? = some (inst.budget.getD 0 0) :=
    getElem?_eq_getD (List.length_pos.2 hb)
  have hone : 0 < 2 ^ inst.items := Nat.two_pow_pos _
  unfold solve_revenue
  rw [if_neg (by omega)]
  simp only
  rw [hd]
  simp only [hn, generate, Nat.sub_self, List.range'_zero, List.foldlM_nil]
  simp [pure, List.getElem?_replicate]

/-- Once bit 31 of `u` is set, the loop of `revenue` entered at the first set
bit from a position `i ≤ 31` on never returns: it either reads outside `b` or
reaches `nextSetBit(u, 32)`. -/
theorem revenueLoop_bit31 (b : List Int) (u : Nat) (h31 : u.testBit 31 = true) :
    ∀ fuel i j r, i ≤ 31 → nextSetBit u i = some j → revenueLoop b u fuel j r = none := by
  intro fuel
  induction fuel with
  | zero => intro i j r _ _; rfl
  | succ fuel ih =>
    intro i j r hi hn
    rcases nextSetBit_spec u i (by omega) with ⟨_, h2⟩ | ⟨j0, h1, hij, hj32, _, _⟩
    · have := h2 31 hi (by decide)
      rw [h31] at this
      exact Bool.noConfusion this
    · rw [h1] at hn
      injection hn with hn
      subst hn
      unfold revenueLoop
      rw [if_pos (Int.natCast_nonneg j0), Int.toNat_natCast]
      cases b[j0]? with
      | none => rfl
      | some x =>
        simp only
        cases hn' : nextSetBit u (j0 + 1) with
        | none => rfl
        | some j' =>
          simp only
          have hlt : j0 + 1 ≤ 31 := by
            by_contra hge
            have e : j0 + 1 = 32 := by omega
            rw [e] at hn'
            simp [nextSetBit] at hn'
          exact ih (j0 + 1) j' _ hlt hn'

/-- For every word with bit 31 set, whatever the cap and the bids, `revenue`
has no defined result. -/
theorem revenue_bit31 (d : Int) (b : List Int) (u : Nat) (h31 : u.testBit 31 = true) :
    revenue d b u = none := by
  unfold revenue
  cases hn : nextSetBit u 0 with
  | none => rfl
  | some j =>
    simp only
    rw [revenueLoop_bit31 b u h31 33 0 j 0 (by decide) hn]


/-! ## Where `solve_revenue` departs from the specified solver -/

/-- C1: on the specification's own scenario (2 bidders, 2 items, budgets
`[10, 10]`, bids `[[5, 5], [3, 8]]`) the best assignment earns 13, yet
`solve_revenue` returns 5. -/
theorem solve_revenue_not_optimal :
    optimalRevenue ⟨2, 2, [10, 10], [5, 5, 3, 8]⟩ = some 13 ∧
    solve_revenue ⟨2, 2, [10, 10], [5, 5, 3, 8]⟩ = some 5 := by
  decide

/-- C4: on the same scenario the specified fold (bound `2 ^ items`, rows at
`i * items`, result at the full item mask) gives 13, yet `solve_revenue`
returns 5. -/
theorem solve_revenue_ne_AuctionSolver :
    AuctionSolver ⟨2, 2, [10, 10], [5, 5, 3, 8]⟩ = 13 ∧
    solve_revenue ⟨2, 2, [10, 10], [5, 5, 3, 8]⟩ = some 5 := by
  decide

/-- C6: with 1 bidder, 1 item, budget 5 and bid 7 the capped bid sum at the
full item mask is 5, yet `solve_revenue` returns 0. -/
theorem solve_revenue_single_bidder_zero :
    revenue 5 [7] (2 ^ 1 - 1) = some 5 ∧ min 5 (bidSum 1 [7] (2 ^ 1 - 1)) = 5 ∧
    solve_revenue ⟨1, 1, [5], [7]⟩ = some 0 := by
  decide

/-- C7: with 2 bidders and 3 items the row handed to `generate` for bidder 1
starts at offset `1 * 2`, not `1 * 3`: the bid used for bidder 1 and item 0 is
`bids[2] = 4`, not `bids[3] = 7`, the same cell serves bidder 0 and item 2, and
the result is 4. -/
theorem bidRow_offset_is_bidders :
    (bidRow ⟨2, 3, [10, 10], [0, 0, 4, 7, 0, 0]⟩ 1)[0]? = some 4 ∧
    (bidRow ⟨2, 3, [10, 10], [0, 0, 4, 7, 0, 0]⟩ 0)[2]? = some 4 ∧
    ([0, 0, 4, 7, 0, 0] : List Int)[1 * 3 + 0]? = some 7 ∧
    solve_revenue ⟨2, 3, [10, 10], [0, 0, 4, 7, 0, 0]⟩ = some 4 := by
  decide

/-- C11: with no items and two bidders the table has the single entry `S[0]`,
yet `generate` runs `u = 1`: it reads `b[0]` from the empty bid vector and
stores to `S[1]`, both outside their vectors, so no value is returned; with one
bidder the result is `0`. -/
theorem solve_revenue_zero_items :
    revenue 1 (bidRow ⟨2, 0, [1, 1], []⟩ 0) 1 = none ∧
    store (List.replicate (2 ^ 0) 0) 1 0 = none ∧
    solve_revenue ⟨2, 0, [1, 1], []⟩ = none ∧
    solve_revenue ⟨1, 0, [1], []⟩ = some 0 := by
  decide

/-- C14: on the well-formed instance with 2 bidders and 1 item the row of
bidder 1 starts at offset `1 * 2`, past the end of the 2-entry bid vector, so
the read of `b[0]` is out of range; with 3 bidders and 1 item `generate` stores
to `S[2]` in a table of size `2 ^ 1`. -/
theorem solve_revenue_out_of_bounds :
    (bidRow ⟨2, 1, [1, 1], [1, 1]⟩ 1)[0]? = none ∧
    solve_revenue ⟨2, 1, [1, 1], [1, 1]⟩ = none ∧
    store (List.replicate (2 ^ 1) 0) 2 1 = none ∧
    solve_revenue ⟨3, 1, [1, 1, 1], [1, 1, 1]⟩ = none := by
  decide

/-! ## The submasks visited by the inner loop of `merge`, continued -/

/-- C12: for every 32-bit mask `u` the inner `do ... while` loop of `merge`
(start at `m = u`, step `m = (m - 1) & u`, stop when `m = u` again) terminates;
its body runs exactly `2 ^ popcount(u)` times, at every submask of `u` exactly
once, in strictly decreasing order, first at `m = u` and last at `m = 0`. -/
theorem submask_loop_visits_all (u : Nat) (hu : u < 2 ^ 32) :
    ∃ l, submaskLoop u (u + 1) u = some l ∧
      (∀ S Sp r, mergeLoop S Sp u (u + 1) u r = l.foldlM (mergeBody S Sp u) r) ∧
      l.length = 2 ^ popcount u ∧ l.Pairwise (fun a b => b < a) ∧
      (∀ m, m ∈ l ↔ Submask m u) ∧ l.head? = some u ∧ l.getLast? = some 0 := by
  obtain ⟨l, hl, hhead, hlast, hpair, hmem⟩ :=
    submaskLoop_spec u hu (u + 1) u (submask_refl u) (by omega)
  have hmem' : ∀ m, m ∈ l ↔ Submask m u := fun m =>
    (hmem m).trans ⟨fun h => h.1, fun h => ⟨h, h.le⟩⟩
  refine ⟨l, hl, fun S Sp r => mergeLoop_eq_foldlM S Sp u _ _ r l hl, ?_, hpair, hmem', hhead,
    hlast⟩
  have hnd : l.Nodup := hpair.imp (fun h => (Nat.ne_of_lt h).symm)
  have hset : l.toFinset = submasks u := by
    ext x
    rw [List.mem_toFinset, hmem', mem_submasks]
  rw [← List.toFinset_card_of_nodup hnd, hset]
  exact card_submasks 32 u hu

theorem submask_loop_visits_all_witness :
    ∃ l, submaskLoop 5 (5 + 1) 5 = some l ∧
      (∀ S Sp r, mergeLoop S Sp 5 (5 + 1) 5 r = l.foldlM (mergeBody S Sp 5) r) ∧
      l.length = 2 ^ popcount 5 ∧ l.Pairwise (fun a b => b < a) ∧
      (∀ m, m ∈ l ↔ Submask m 5) ∧ l.head? = some 5 ∧ l.getLast? = some 0 :=
  submask_loop_visits_all 5 (by decide)

/-! ## The states `solve_revenue` goes through -/

/-- C13: in every successful run of `solve_revenue` the returned value is the
entry at index `bidders - 1` of the accumulator reached after `bidders - 1`
rounds; in every state of the fold each entry of `S`, `Sp` and `Sr` with index
`0` or at least `bidders` still holds its initial `0`; and each round calls
`generate` and `merge` with the bidder count as bound, so that for `u` in
`[1, bidders)` the new `Sp[u]` is `revenue` at `u` and the new `S[u]` is the
merged value at `u`. -/
theorem solve_revenue_bound_is_bidders (inst : Instance) (r : Int)
    (h : solve_revenue inst = some r) :
    (∃ B, runRounds inst (inst.bidders - 1) = some B ∧ B.S[inst.bidders - 1]? = some r) ∧
    (∀ t B, runRounds inst t = some B →
      ∀ i, i < 2 ^ inst.items → ¬(1 ≤ i ∧ i < inst.bidders) →
        B.S[i]? = some 0 ∧ B.Sp[i]? = some 0 ∧ B.Sr[i]? = some 0) ∧
    (∀ t B B', runRounds inst t = some B → foldStep inst B (t + 1) = some B' →
      ∃ d, inst.budget[t + 1]? = some d ∧
        generate B.Sp inst.bidders d (bidRow inst (t + 1)) = some B'.Sp ∧
        merge B.Sr inst.bidders B.S B'.Sp = some B'.S ∧
        ∀ u, 1 ≤ u → u < inst.bidders →
          B'.Sp[u]? = revenue d (bidRow inst (t + 1)) u ∧
          B'.S[u]? = mergeEntry B.S B'.Sp u) := by
  refine ⟨?_, ?_, ?_⟩
  · rw [solve_revenue_eq_runRounds] at h
    cases hr : runRounds inst (inst.bidders - 1) with
    | none => rw [hr] at h; simp at h
    | some B =>
      rw [hr] at h
      simp only at h
      split at h
      · simp at h
      · exact ⟨B, rfl, h⟩
  · intro t B hB i hi hout
    have hP := runRounds_shape inst t B hB
    exact ⟨getElem?_zero_of_getD (by rw [hP.lenS]; exact hi) (hP.outS i hout),
      getElem?_zero_of_getD (by rw [hP.lenSp]; exact hi) (hP.outSp i hout),
      getElem?_zero_of_getD (by rw [hP.lenSr]; exact hi) (hP.outSr i hout)⟩
  · intro t B B' _ hs
    obtain ⟨d, hd, hg, hm, _⟩ := foldStep_some inst B B' (t + 1) hs
    refine ⟨d, hd, hg, hm, fun u h1 h2 => ⟨?_, ?_⟩⟩
    · rw [(generate_entry _ _ _ _ _ hg).2.2 u, if_pos ⟨h1, h2⟩]
    · rw [(merge_entry _ _ _ _ _ hm).2.2 u, if_pos ⟨h1, h2⟩]

theorem solve_revenue_bound_is_bidders_witness :
    (∃ B, runRounds ⟨2, 2, [10, 10], [5, 5, 3, 8]⟩ (2 - 1) = some B ∧
      B.S[2 - 1]? = some 5) ∧
    (∀ t B, runRounds ⟨2, 2, [10, 10], [5, 5, 3, 8]⟩ t = some B →
      ∀ i, i < 2 ^ 2 → ¬(1 ≤ i ∧ i < 2) →
        B.S[i]? = some 0 ∧ B.Sp[i]? = some 0 ∧ B.Sr[i]? = some 0) ∧
    (∀ t B B', runRounds ⟨2, 2, [10, 10], [5, 5, 3, 8]⟩ t = some B →
      foldStep ⟨2, 2, [10, 10], [5, 5, 3, 8]⟩ B (t + 1) = some B' →
      ∃ d, ([10, 10] : List Int)[t + 1]? = some d ∧
        generate B.Sp 2 d (bidRow ⟨2, 2, [10, 10], [5, 5, 3, 8]⟩ (t + 1)) = some B'.Sp ∧
        merge B.Sr 2 B.S B'.Sp = some B'.S ∧
        ∀ u, 1 ≤ u → u < 2 →
          B'.Sp[u]? = revenue d (bidRow ⟨2, 2, [10, 10], [5, 5, 3, 8]⟩ (t + 1)) u ∧
          B'.S[u]? = mergeEntry B.S B'.Sp u) :=
  solve_revenue_bound_is_bidders ⟨2, 2, [10, 10], [5, 5, 3, 8]⟩ 5 (by decide)

/-- C17: `generate` and `merge` never write index 0, and in every state of the
fold of `solve_revenue` (after the initial `generate` and after every round of
generate, merge, swap) each of `S`, `Sp` and `Sr` holds `0` at index 0. -/
theorem index_zero_never_written (inst : Instance) (t : Nat) (B : Buffers)
    (h : runRounds inst t = some B) :
    B.S[0]? = some 0 ∧ B.Sp[0]? = some 0 ∧ B.Sr[0]? = some 0 ∧
    (∀ T T' n d b, generate T n d b = some T' → T'[0]? = T[0]?) ∧
    (∀ Sr Sr' n S Sp, merge Sr n S Sp = some Sr' → Sr'[0]? = Sr[0]?) := by
  have hP := runRounds_shape inst t B h
  have hpos : 0 < 2 ^ inst.items := Nat.two_pow_pos _
  exact ⟨getElem?_zero_of_getD (by rw [hP.lenS]; exact hpos) (hP.outS 0 (by omega)),
    getElem?_zero_of_getD (by rw [hP.lenSp]; exact hpos) (hP.outSp 0 (by omega)),
    getElem?_zero_of_getD (by rw [hP.lenSr]; exact hpos) (hP.outSr 0 (by omega)),
    fun T T' n d b hg => generate_outside T T' n d b hg 0 (by omega),
    fun Sr Sr' n S Sp hm => merge_outside Sr Sr' S Sp n hm 0 (by omega)⟩

theorem index_zero_never_written_witness :
    ([0, 5, 0, 0] : List Int)[0]? = some 0 ∧ ([0, 3, 0, 0] : List Int)[0]? = some 0 ∧
    ([0, 5, 0, 0] : List Int)[0]? = some 0 ∧
    (∀ T T' n d b, generate T n d b = some T' → T'[0]? = T[0]?) ∧
    (∀ Sr Sr' n S Sp, merge Sr n S Sp = some Sr' → Sr'[0]? = Sr[0]?) :=
  index_zero_never_written ⟨2, 2, [10, 10], [5, 5, 3, 8]⟩ 1
    ⟨[0, 5, 0, 0], [0, 3, 0, 0], [0, 5, 0, 0]⟩ (by decide)

/-- C19: whenever `merge` succeeds on integer tables `S` and `Sp`, the value it
writes to `Sr[u]` at an enumerated `u` is at least `S[u]`; and whenever a round
of the fold of `solve_revenue` succeeds from a state the fold reaches, every
entry of the accumulator after the round is at least the same entry before. -/
theorem merge_never_lowers (Sr Sr' S Sp : List Int) (n : Nat)
    (hm : merge Sr n S Sp = some Sr')
    (inst : Instance) (t i : Nat) (B B' : Buffers)
    (hB : runRounds inst t = some B) (hs : foldStep inst B i = some B') :
    (∀ u, 1 ≤ u → u < n → ∃ v, Sr'[u]? = some v ∧ S.getD u 0 ≤ v) ∧
    (∀ j, B.S.getD j 0 ≤ B'.S.getD j 0) := by
  have key : ∀ (Sr Sr' S Sp : List Int) (n : Nat), merge Sr n S Sp = some Sr' →
      ∀ u, 1 ≤ u → u < n → ∃ v, Sr'[u]? = some v ∧ S.getD u 0 ≤ v := by
    intro Sr Sr' S Sp n hm u h1 h2
    obtain ⟨ml, mb, me⟩ := merge_entry Sr Sr' S Sp n hm
    have hlt : u < Sr'.length := by rw [ml]; exact mb u h1 h2
    have e := me u
    rw [if_pos ⟨h1, h2⟩, getElem?_eq_getD hlt] at e
    exact ⟨_, getElem?_eq_getD hlt, mergeEntry_ge S Sp u _ e.symm⟩
  refine ⟨key Sr Sr' S Sp n hm, ?_⟩
  intro j
  have hP := runRounds_shape inst t B hB
  obtain ⟨d, _, _, hm', _⟩ := foldStep_some inst B B' i hs
  by_cases hj : 1 ≤ j ∧ j < inst.bidders
  · obtain ⟨v, hv, hle⟩ := key _ _ _ _ _ hm' j hj.1 hj.2
    rw [getD_of_getElem? hv]
    exact hle
  · rw [getD_congr _ _ j (merge_outside _ _ _ _ _ hm' j hj), hP.outSr j hj, hP.outS j hj]

theorem merge_never_lowers_witness :
    (∀ u, 1 ≤ u → u < 4 →
      ∃ v, ([0, 5, 8, 13] : List Int)[u]? = some v ∧ ([0, 5, 5, 10] : List Int).getD u 0 ≤ v) ∧
    (∀ j, ([0, 3, 0, 0] : List Int).getD j 0 ≤ ([0, 8, 0, 0] : List Int).getD j 0) :=
  merge_never_lowers [0, 0, 0, 0] [0, 5, 8, 13] [0, 5, 5, 10] [0, 3, 8, 10] 4 (by decide)
    ⟨2, 2, [10, 10], [3, 5, 8, 8]⟩ 0 1
    ⟨[0, 3, 0, 0], [0, 0, 0, 0], [0, 0, 0, 0]⟩ ⟨[0, 8, 0, 0], [0, 8, 0, 0], [0, 3, 0, 0]⟩
    (by decide) (by decide)

/-! ## When the 32-bit sums are exact -/

theorem wrap32_eq {x : Int} (h1 : INT_MIN ≤ x) (h2 : x ≤ INT_MAX) : wrap32 x = x := by
  unfold wrap32
  unfold INT_MIN at h1
  unfold INT_MAX at h2
  omega

theorem wrap32_range (x : Int) : INT_MIN ≤ wrap32 x ∧ wrap32 x ≤ INT_MAX := by
  unfold wrap32 INT_MIN INT_MAX
  omega

/-- With non-negative bids of at most `M`, on a word of at most `k ≤ 31` bits
with `k * M` inside the `int` range, the loop of `revenue` forms no sum outside
the range: it agrees with the loop over unbounded integers. -/
theorem revenueLoop_eq_Z (b : List Int) (M : Int) (hM : 0 ≤ M)
    (hb : ∀ x ∈ b, 0 ≤ x ∧ x ≤ M) (u k : Nat) (hk : k ≤ 31) (hu : u < 2 ^ k)
    (hkM : (k : Int) * M ≤ INT_MAX) :
    ∀ fuel (j : Int) (r : Int), (∀ j0 : Nat, j = (j0 : Int) → u.testBit j0 = true) → 0 ≤ r →
      (∀ j0 : Nat, j = (j0 : Int) → r ≤ (j0 : Int) * M) →
      revenueLoop b u fuel j r = revenueLoopZ b u fuel j r := by
  intro fuel
  induction fuel with
  | zero => intro j r _ _ _; rfl
  | succ fuel ih =>
    intro j r hbit hr hle
    unfold revenueLoop revenueLoopZ
    by_cases hj : 0 ≤ j
    · obtain ⟨j0, rfl⟩ := Int.eq_ofNat_of_zero_le hj
      rw [if_pos hj, if_pos hj, Int.toNat_natCast]
      cases hx : b[j0]? with
      | none => rfl
      | some x =>
        simp only
        cases hn : nextSetBit u (j0 + 1) with
        | none => rfl
        | some j' =>
          simp only
          have hj0 : j0 < k := bit_lt_of_lt_two_pow hu (hbit j0 rfl)
          have hxb := hb x (List.getElem?_mem hx)
          have hrj := hle j0 rfl
          have hstep : (j0 : Int) * M + M = ((j0 + 1 : Nat) : Int) * M := by
            push_cast
            rw [add_mul, one_mul]
          have hcap : ((j0 + 1 : Nat) : Int) * M ≤ (k : Int) * M :=
            mul_le_mul_of_nonneg_right (by exact_mod_cast hj0) hM
          rw [wrap32_eq (INT_MIN_le_of_nonneg (by omega)) (by omega)]
          apply ih j' (r + x)
          · intro j1 e
            rcases nextSetBit_spec u (j0 + 1) (by omega) with ⟨h1, _⟩ | ⟨j2, h1, _, _, h4, _⟩
            · rw [h1] at hn
              injection hn with hn
              omega
            · rw [h1] at hn
              injection hn with hn
              have : j1 = j2 := by omega
              rw [this]
              exact h4
          · omega
          · intro j1 e
            rcases nextSetBit_spec u (j0 + 1) (by omega) with ⟨h1, _⟩ | ⟨j2, h1, h2, _, _, _⟩
            · rw [h1] at hn
              injection hn with hn
              omega
            · rw [h1] at hn
              injection hn with hn
              have e2 : j1 = j2 := by omega
              have hmono : ((j0 + 1 : Nat) : Int) * M ≤ (j1 : Int) * M :=
                mul_le_mul_of_nonneg_right (by exact_mod_cast (by omega : j0 + 1 ≤ j1)) hM
              omega
    · rw [if_neg hj, if_neg hj]

theorem revenue_eq_Z (d : Int) (b : List Int) (M : Int) (hM : 0 ≤ M)
    (hb : ∀ x ∈ b, 0 ≤ x ∧ x ≤ M) (u k : Nat) (hk : k ≤ 31) (hu : u < 2 ^ k)
    (hkM : (k : Int) * M ≤ INT_MAX) : revenue d b u = revenueZ d b u := by
  unfold revenue revenueZ
  cases hn : nextSetBit u 0 with
  | none => rfl
  | some j =>
    simp only
    rw [revenueLoop_eq_Z b M hM hb u k hk hu hkM 33 j 0 ?_ (le_refl _) ?_]
    · intro j1 e
      rcases nextSetBit_spec u 0 (by decide) with ⟨h1, _⟩ | ⟨j2, h1, _, _, h4, _⟩
      · rw [h1] at hn
        injection hn with hn
        omega
      · rw [h1] at hn
        injection hn with hn
        have : j1 = j2 := by omega
        rw [this]
        exact h4
    · intro j1 _
      exact mul_nonneg (Int.natCast_nonneg _) hM

/-- Under the same bounds `generate` agrees with `generate` over unbounded
integers whenever every enumerated word has at most `k` bits. -/
theorem generate_eq_Z (T : List Int) (n k : Nat) (d : Int) (b : List Int) (M : Int)
    (hM : 0 ≤ M) (hb : ∀ x ∈ b, 0 ≤ x ∧ x ≤ M) (hk : k ≤ 31)
    (hkM : (k : Int) * M ≤ INT_MAX) (hlt : ∀ u, 1 ≤ u → u < n → u < 2 ^ k) :
    generate T n d b = generateZ T n d b := by
  unfold generate generateZ
  apply foldlM_congr_mem
  intro x u hu
  rw [mem_range'_one] at hu
  unfold generateStep generateStepZ
  rw [revenue_eq_Z d b M hM hb u k hk (hlt u hu.1 hu.2) hkM]

/-- When every split sum of `u` fits in 32 bits, the submask loop agrees with
the loop over unbounded integers. -/
theorem mergeLoop_eq_Z (S Sp : List Int) (u : Nat)
    (hsum : ∀ m, Submask m u → INT_MIN ≤ S.getD m 0 + Sp.getD (restOf u m) 0 ∧
      S.getD m 0 + Sp.getD (restOf u m) 0 ≤ INT_MAX) :
    ∀ fuel m r, Submask m u → mergeLoop S Sp u fuel m r = mergeLoopZ S Sp u fuel m r := by
  intro fuel
  induction fuel with
  | zero => intro m r _; rfl
  | succ fuel ih =>
    intro m r hm
    unfold mergeLoop mergeLoopZ
    cases hS : S[m]? with
    | none => rfl
    | some a =>
      cases hSp : Sp[restOf u m]? with
      | none => rfl
      | some c =>
        simp only
        have := hsum m hm
        rw [getD_of_getElem? hS, getD_of_getElem? hSp] at this
        rw [wrap32_eq this.1 this.2]
        split
        · rfl
        · exact ih _ _ (subStep_submask u m)

theorem mergeEntry_eq_Z (S Sp : List Int) (u : Nat)
    (hsum : ∀ m, Submask m u → INT_MIN ≤ S.getD m 0 + Sp.getD (restOf u m) 0 ∧
      S.getD m 0 + Sp.getD (restOf u m) 0 ≤ INT_MAX) :
    mergeEntry S Sp u = mergeEntryZ S Sp u := by
  unfold mergeEntry mergeEntryZ
  cases S[u]? with
  | none => rfl
  | some r => exact mergeLoop_eq_Z S Sp u hsum _ _ _ (submask_refl u)

/-- When every split sum formed for an enumerated `u` fits in 32 bits, `merge`
agrees with `merge` over unbounded integers. -/
theorem merge_eq_Z (Sr S Sp : List Int) (n : Nat)
    (hsum : ∀ u, 1 ≤ u → u < n → ∀ m, Submask m u →
      INT_MIN ≤ S.getD m 0 + Sp.getD (restOf u m) 0 ∧
      S.getD m 0 + Sp.getD (restOf u m) 0 ≤ INT_MAX) :
    merge Sr n S Sp = mergeZ Sr n S Sp := by
  unfold merge mergeZ
  apply foldlM_congr_mem
  intro x u hu
  rw [mem_range'_one] at hu
  unfold mergeStep mergeStepZ
  rw [mergeEntry_eq_Z S Sp u (hsum u hu.1 hu.2)]

/-- With accumulator and bidder table between `0` and the number of items of
the subset times `M`, every split sum lies between `0` and `k * M`. -/
theorem split_sum_bound (k n : Nat) (M : Int) (hM : 0 ≤ M) (hkM : (k : Int) * M ≤ INT_MAX)
    (S Sp : List Int)
    (hS : ∀ u, u < n → 0 ≤ S.getD u 0 ∧ S.getD u 0 ≤ (bitCount k u : Int) * M)
    (hSp : ∀ u, u < n → 0 ≤ Sp.getD u 0 ∧ Sp.getD u 0 ≤ (bitCount k u : Int) * M) :
    ∀ u, u < n → u < 2 ^ 32 → ∀ m, Submask m u →
      INT_MIN ≤ S.getD m 0 + Sp.getD (restOf u m) 0 ∧
      S.getD m 0 + Sp.getD (restOf u m) 0 ≤ INT_MAX := by
  intro u hu hu32 m hmu
  have a := hS m (lt_of_le_of_lt hmu.le hu)
  have c := hSp (restOf u m) (lt_of_le_of_lt (restOf_le u m) hu)
  have e := bitCount_split hu32 hmu k
  have e' : (bitCount k u : Int) * M =
      (bitCount k m : Int) * M + (bitCount k (restOf u m) : Int) * M := by
    rw [← e]
    push_cast
    rw [add_mul]
  have hcnt : (bitCount k u : Int) * M ≤ (k : Int) * M :=
    mul_le_mul_of_nonneg_right (by exact_mod_cast bitCount_le k u) hM
  exact ⟨INT_MIN_le_of_nonneg (by omega), by omega⟩

theorem shape_init (N n : Nat) (S : List Int) (hl : S.length = N)
    (hout : ∀ i, ¬(1 ≤ i ∧ i < n) → S[i]? = (List.replicate N (0 : Int))[i]?) :
    ShapeInv N n ⟨S, List.replicate N 0, List.replicate N 0⟩ := by
  refine ⟨hl, List.length_replicate _ _, List.length_replicate _ _, ?_,
    fun i _ => replicate_getD_zero _ _, fun i _ => replicate_getD_zero _ _⟩
  intro i hi
  show S.getD i 0 = 0
  rw [getD_congr _ _ i (hout i hi)]
  exact replicate_getD_zero _ _

/-- From a state within the bounds a round of the fold forms no sum outside the
`int` range: whenever it succeeds in 32 bits or over unbounded integers, the two
rounds agree. -/
theorem foldStep_eq_Z (inst : Instance) (M : Int) (hk : inst.items ≤ 30)
    (hbud : ∀ x ∈ inst.budget, 0 ≤ x) (hbids : ∀ x ∈ inst.bids, 0 ≤ x ∧ x ≤ M)
    (hM : 0 ≤ M) (hkM : (inst.items : Int) * M ≤ INT_MAX) (i : Nat) (B : Buffers)
    (hQ : SumInv inst.items inst.bidders M B)
    (hdef : (∃ B', foldStep inst B i = some B') ∨ (∃ B', foldStepZ inst B i = some B')) :
    foldStep inst B i = foldStepZ inst B i := by
  have hN : 2 ^ inst.items ≤ 2 ^ 32 := Nat.pow_le_pow_right (by decide) (by omega)
  have hrow : ∀ x ∈ bidRow inst i, 0 ≤ x ∧ x ≤ M :=
    fun x hx => hbids x (List.mem_of_mem_drop hx)
  have hlt : ∀ u, 1 ≤ u → u < inst.bidders → u < 2 ^ inst.items := by
    intro u h1 h2
    rw [← hQ.shape.lenSp]
    rcases hdef with ⟨B', h⟩ | ⟨B', h⟩
    · obtain ⟨d, _, hg, _, _⟩ := foldStep_some inst B B' i h
      exact (generate_entry _ _ _ _ _ hg).2.1 u h1 h2
    · obtain ⟨d, _, hg, _, _⟩ := foldStepZ_some inst B B' i h
      exact (generateZ_entry _ _ _ _ _ hg).2.1 u h1 h2
  unfold foldStep foldStepZ
  cases hd : inst.budget[i]? with
  | none => rfl
  | some d =>
    simp only
    rw [generate_eq_Z B.Sp inst.bidders inst.items d (bidRow inst i) M hM hrow (by omega) hkM hlt]
    cases hg : generateZ B.Sp inst.bidders d (bidRow inst i) with
    | none => rfl
    | some Sp' =>
      simp only
      have hSp := (generate32_eq B.Sp Sp' inst.bidders inst.items d (bidRow inst i) M hg
        (by omega) hQ.shape.lenSp (hQ.shape.outSp 0 (by omega))
        (hbud d (List.getElem?_mem hd)) hM hrow hkM).2
      rw [merge_eq_Z B.Sr B.S Sp' inst.bidders (fun u h1 h2 m hm =>
        split_sum_bound inst.items inst.bidders M hM hkM B.S Sp' hQ.bound hSp u h2
          (lt_of_lt_of_le (hlt u h1 h2) hN) m hm)]

/-- The bounds hold when the loop is entered, in 32 bits and over unbounded
integers alike. -/
theorem init_sumInv (inst : Instance) (M : Int) (hk : inst.items ≤ 30)
    (hbud : ∀ x ∈ inst.budget, 0 ≤ x) (hbids : ∀ x ∈ inst.bids, 0 ≤ x ∧ x ≤ M)
    (hM : 0 ≤ M) (hkM : (inst.items : Int) * M ≤ INT_MAX) (d0 : Int) (S : List Int)
    (hd : inst.budget[0]? = some d0)
    (hdef : generate (List.replicate (2 ^ inst.items) 0) inst.bidders d0 (bidRow inst 0) = some S ∨
      generateZ (List.replicate (2 ^ inst.items) 0) inst.bidders d0 (bidRow inst 0) = some S) :
    generate (List.replicate (2 ^ inst.items) 0) inst.bidders d0 (bidRow inst 0) = some S ∧
    generateZ (List.replicate (2 ^ inst.items) 0) inst.bidders d0 (bidRow inst 0) = some S ∧
    SumInv inst.items inst.bidders M
      ⟨S, List.replicate (2 ^ inst.items) 0, List.replicate (2 ^ inst.items) 0⟩ := by
  have hrow : ∀ x ∈ bidRow inst 0, 0 ≤ x ∧ x ≤ M :=
    fun x hx => hbids x (List.mem_of_mem_drop hx)
  have hlt : ∀ u, 1 ≤ u → u < inst.bidders → u < 2 ^ inst.items := by
    intro u h1 h2
    rcases hdef with h | h
    · have := (generate_entry _ _ _ _ _ h).2.1 u h1 h2
      rw [List.length_replicate] at this
      exact this
    · have := (generateZ_entry _ _ _ _ _ h).2.1 u h1 h2
      rw [List.length_replicate] at this
      exact this
  have e := generate_eq_Z (List.replicate (2 ^ inst.items) 0) inst.bidders inst.items d0
    (bidRow inst 0) M hM hrow (by omega) hkM hlt
  have hZ : generateZ (List.replicate (2 ^ inst.items) 0) inst.bidders d0 (bidRow inst 0) =
      some S := by
    rcases hdef with h | h
    · rw [← e]; exact h
    · exact h
  have hb := (generate32_eq _ S inst.bidders inst.items d0 (bidRow inst 0) M hZ
    (by omega) (List.length_replicate _ _) (replicate_getD_zero _ _)
    (hbud d0 (List.getElem?_mem hd)) hM hrow hkM).2
  refine ⟨by rw [e]; exact hZ, hZ, ?_, hb⟩
  apply shape_init
  · rw [(generateZ_entry _ _ _ _ _ hZ).1, List.length_replicate]
  · exact fun i hi => generateZ_outside _ _ _ _ _ hZ i hi

/-- With non-negative budgets and bids, bids of at most `M ≥ 0` and `items * M`
inside the `int` range, `solve_revenue` forms no sum outside the range: it
agrees with `solve_revenue` over unbounded integers. -/
theorem solve_revenue_eq_Z_of_bound (inst : Instance) (M : Int)
    (hbud : ∀ x ∈ inst.budget, 0 ≤ x) (hbids : ∀ x ∈ inst.bids, 0 ≤ x ∧ x ≤ M)
    (hM : 0 ≤ M) (hkM : (inst.items : Int) * M ≤ INT_MAX) :
    solve_revenue inst = solve_revenueZ inst := by
  have hWZ : ∀ r, solve_revenue inst = some r → solve_revenueZ inst = some r := by
    intro r h
    obtain ⟨hk, hn0, d0, S, B, hd, hg, hf, hr⟩ := solve_revenue_some inst r h
    obtain ⟨_, hgZ, hQ⟩ := init_sumInv inst M hk hbud hbids hM hkM d0 S hd (Or.inl hg)
    have hfZ := foldlM_range'_sim (foldStep inst) (foldStepZ inst)
      (SumInv inst.items inst.bidders M) (inst.bidders - 1) 1 _ B hf hQ
      (fun i x y hx hs => by
        have e := foldStep_eq_Z inst M hk hbud hbids hM hkM i x hx (Or.inl ⟨y, hs⟩)
        have hsZ : foldStepZ inst x i = some y := by rw [← e]; exact hs
        exact ⟨hsZ, (foldStep32_eq inst M hk hbud hbids hM hkM i x y hx hsZ).2⟩)
    unfold solve_revenueZ
    rw [if_neg (by omega)]
    simp only
    rw [hd]
    simp only
    rw [hgZ]
    simp only
    rw [hfZ]
    simp only
    rw [if_neg hn0, hr]
  have hZW : ∀ r, solve_revenueZ inst = some r → solve_revenue inst = some r := by
    intro r h
    obtain ⟨hk, hn0, d0, S, B, hd, hg, hf, hr⟩ := solve_revenueZ_some inst r h
    obtain ⟨hgW, _, hQ⟩ := init_sumInv inst M hk hbud hbids hM hkM d0 S hd (Or.inr hg)
    have hfW := foldlM_range'_sim (foldStepZ inst) (foldStep inst)
      (SumInv inst.items inst.bidders M) (inst.bidders - 1) 1 _ B hf hQ
      (fun i x y hx hs => by
        have e := foldStep_eq_Z inst M hk hbud hbids hM hkM i x hx (Or.inr ⟨y, hs⟩)
        exact ⟨by rw [e]; exact hs, (foldStep32_eq inst M hk hbud hbids hM hkM i x y hx hs).2⟩)
    unfold solve_revenue
    rw [if_neg (by omega)]
    simp only
    rw [hd]
    simp only
    rw [hgW]
    simp only
    rw [hfW]
    simp only
    rw [if_neg hn0, hr]
  cases h : solve_revenue inst with
  | some r => exact (hWZ r h).symm
  | none =>
    cases h2 : solve_revenueZ inst with
    | none => rfl
    | some r =>
      have := hZW r h2
      rw [h] at this
      exact this

/-- The same without the sign condition on the bound `M`. -/
theorem solve_revenue_eq_Z (inst : Instance) (M : Int)
    (hbud : ∀ x ∈ inst.budget, 0 ≤ x) (hbids : ∀ x ∈ inst.bids, 0 ≤ x ∧ x ≤ M)
    (hkM : (inst.items : Int) * M ≤ 2 ^ 31 - 1) :
    solve_revenue inst = solve_revenueZ inst := by
  have hmax : (inst.items : Int) * max M 0 ≤ INT_MAX := by
    rcases le_total M 0 with hle | hle
    · rw [max_eq_right hle, mul_zero]
      decide
    · rw [max_eq_left hle]
      exact hkM
  exact solve_revenue_eq_Z_of_bound inst (max M 0) hbud
    (fun x hx => ⟨(hbids x hx).1, le_trans (hbids x hx).2 (le_max_left _ _)⟩)
    (le_max_right _ _) hmax

/-- With a non-negative bound `M` on the bids: every run of `solve_revenue` over
unbounded integers that returns also returns, with the same value, with checked
sums. -/
theorem solve_revenue32_of_bound (inst : Instance) (M : Int)
    (hbud : ∀ x ∈ inst.budget, 0 ≤ x) (hbids : ∀ x ∈ inst.bids, 0 ≤ x ∧ x ≤ M)
    (hM : 0 ≤ M) (hkM : (inst.items : Int) * M ≤ INT_MAX) (r : Int)
    (h : solve_revenueZ inst = some r) : solve_revenue32 inst = some r := by
  obtain ⟨hk, hn0, d0, S, B, hd, hg, hf, hr⟩ := solve_revenueZ_some inst r h
  obtain ⟨_, _, hQ⟩ := init_sumInv inst M hk hbud hbids hM hkM d0 S hd (Or.inr hg)
  have hg32 := (generate32_eq _ S inst.bidders inst.items d0 (bidRow inst 0) M hg
    (by omega) (List.length_replicate _ _) (replicate_getD_zero _ _)
    (hbud d0 (List.getElem?_mem hd)) hM
    (fun x hx => hbids x (List.mem_of_mem_drop hx)) hkM).1
  have hf32 := foldlM_range'_sim (foldStepZ inst) (foldStep32 inst)
    (SumInv inst.items inst.bidders M) (inst.bidders - 1) 1 _ B hf hQ
    (fun i x y hx hs => foldStep32_eq inst M hk hbud hbids hM hkM i x y hx hs)
  unfold solve_revenue32
  rw [if_neg (by omega)]
  simp only
  rw [hd]
  simp only
  rw [hg32]
  simp only
  rw [hf32]
  simp only
  rw [if_neg hn0, hr]

/-- C15: on every instance with non-negative budgets and bids whose bids are at
most `M` with `items * M ≤ 2 ^ 31 - 1`, every run of `solve_revenue` that stays
inside its vectors (and so returns over unbounded integers) forms no sum
`r += b[j]` or `S[m] + Sp[~m & u]` outside the `int` range: the computation with
checked sums returns, and it and the 32-bit `solve_revenue` both return the
value of the computation over unbounded integers. -/
theorem solve_revenue32_eq (inst : Instance) (M : Int)
    (hbud : ∀ x ∈ inst.budget, 0 ≤ x) (hbids : ∀ x ∈ inst.bids, 0 ≤ x ∧ x ≤ M)
    (hkM : (inst.items : Int) * M ≤ 2 ^ 31 - 1) (r : Int)
    (h : solve_revenueZ inst = some r) :
    solve_revenue32 inst = some r ∧ solve_revenue inst = some r := by
  have hmax : (inst.items : Int) * max M 0 ≤ INT_MAX := by
    rcases le_total M 0 with hle | hle
    · rw [max_eq_right hle, mul_zero]
      decide
    · rw [max_eq_left hle]
      exact hkM
  refine ⟨?_, by rw [solve_revenue_eq_Z inst M hbud hbids hkM]; exact h⟩
  exact solve_revenue32_of_bound inst (max M 0) hbud
    (fun x hx => ⟨(hbids x hx).1, le_trans (hbids x hx).2 (le_max_left _ _)⟩)
    (le_max_right _ _) hmax r h

theorem solve_revenue32_eq_witness :
    solve_revenue32 ⟨2, 2, [10, 10], [5, 5, 3, 8]⟩ = some 5 ∧
    solve_revenue ⟨2, 2, [10, 10], [5, 5, 3, 8]⟩ = some 5 :=
  solve_revenue32_eq ⟨2, 2, [10, 10], [5, 5, 3, 8]⟩ 8 (by decide) (by decide) (by decide) 5
    (by decide)

/-! ## Claims on `solve_revenue`, `merge` and `revenue` that need sums inside the `int` range -/

/-- C5 (as stated): on the valid instance with 4 bidders, 4 items and every
budget and bid equal to `2 ^ 31 - 1` all accesses are in range, the sums of
`revenue` leave the `int` range, and `solve_revenue` returns `-2`. -/
theorem solve_revenue_negative_counterexample :
    solve_revenue ⟨4, 4, [2147483647, 2147483647, 2147483647, 2147483647],
      List.replicate 16 2147483647⟩ = some (-2) := by
  decide

/-- C5 (amended): on every instance with at least one bidder, one budget per
bidder, non-negative budgets and bids, and bids of at most `M` with
`items * M ≤ 2 ^ 31 - 1`, every value `solve_revenue` returns lies between `0`
and the sum of all budgets; and it does return a value when moreover the
number of items is at most 30, there are `bidders * items` bids, and there is
one bidder or at most as many bidders as items (the runs that stay inside the
vectors). -/
theorem solve_revenue_bounds (inst : Instance) (M : Int) (hn : 1 ≤ inst.bidders)
    (hlen : inst.budget.length = inst.bidders)
    (hbud : ∀ x ∈ inst.budget, 0 ≤ x) (hbids : ∀ x ∈ inst.bids, 0 ≤ x ∧ x ≤ M)
    (hkM : (inst.items : Int) * M ≤ 2 ^ 31 - 1) :
    (∀ r, solve_revenue inst = some r → 0 ≤ r ∧ r ≤ inst.budget.sum) ∧
    (inst.items ≤ 30 → inst.bids.length = inst.bidders * inst.items →
      (inst.bidders = 1 ∨ inst.bidders ≤ inst.items) → ∃ r, solve_revenue inst = some r) := by
  rw [solve_revenue_eq_Z inst M hbud hbids hkM]
  exact solve_revenueZ_bounds inst hn hlen hbud (fun x hx => (hbids x hx).1)

theorem solve_revenue_bounds_witness :
    (∀ r, solve_revenue ⟨2, 2, [10, 10], [5, 5, 3, 8]⟩ = some r →
      0 ≤ r ∧ r ≤ ([10, 10] : List Int).sum) ∧
    ((2 : Nat) ≤ 30 → ([5, 5, 3, 8] : List Int).length = 2 * 2 →
      ((2 : Nat) = 1 ∨ (2 : Nat) ≤ 2) →
      ∃ r, solve_revenue ⟨2, 2, [10, 10], [5, 5, 3, 8]⟩ = some r) :=
  solve_revenue_bounds ⟨2, 2, [10, 10], [5, 5, 3, 8]⟩ 8 (by decide) (by decide) (by decide)
    (by decide) (by decide)

/-- C2 (as stated): on tables of the data model (non-negative entries, `0` at
index 0) the sum `S[1] + Sp[2] = 2 ^ 31` leaves the `int` range, and `merge`
writes `0` to `Sr[3]`, which is not the maximum over the splits of `3`. -/
theorem merge_overflow_counterexample :
    merge [0, 0, 0, 0] 4 [0, 2147483647, 0, 0] [0, 0, 1, 0] = some [0, 2147483647, 1, 0] ∧
    splitValue [0, 2147483647, 0, 0] [0, 0, 1, 0] 3 1 = 2147483648 ∧
    ¬ IsMaxSplit [0, 2147483647, 0, 0] [0, 0, 1, 0] 3 0 := by
  refine ⟨by decide, by decide, ?_⟩
  intro h
  have := h.2 1 (by decide)
  revert this
  decide

/-- C2 (amended): for tables `S`, `Sp` and an output buffer `Sr` that all hold
the enumeration bound `n`, with `Sp[0] = 0`, such that every sum
`S[m] + Sp[~m & u]` over a submask `m` of an enumerated `u` lies inside the
32-bit `int` range, `merge` succeeds, and for every enumerated `u`
(`1 ≤ u < n`) the value it writes to `Sr[u]` is the maximum over all submasks
`m` of `u` (including `m = u` and `m = 0`) of `S[m] + Sp[~m & u]`. -/
theorem merge_writes_max_split (Sr S Sp : List Int) (n : Nat) (hn : n ≤ 2 ^ 32)
    (hS : n ≤ S.length) (hSp : n ≤ Sp.length) (hSr : n ≤ Sr.length)
    (h0 : Sp[0]? = some 0)
    (hsum : ∀ u, 1 ≤ u → u < n → ∀ m, Submask m u →
      INT_MIN ≤ splitValue S Sp u m ∧ splitValue S Sp u m ≤ INT_MAX) :
    ∃ Sr', merge Sr n S Sp = some Sr' ∧
      ∀ u, 1 ≤ u → u < n → ∃ v, Sr'[u]? = some v ∧ IsMaxSplit S Sp u v := by
  rw [merge_eq_Z Sr S Sp n hsum]
  exact mergeZ_writes_max_split Sr S Sp n hn hS hSp hSr h0

theorem merge_writes_max_split_witness :
    ∃ Sr', merge [0, 0, 0, 0] 4 [0, 5, 5, 10] [0, 3, 8, 10] = some Sr' ∧
      ∀ u, 1 ≤ u → u < 4 →
        ∃ v, Sr'[u]? = some v ∧ IsMaxSplit [0, 5, 5, 10] [0, 3, 8, 10] u v :=
  merge_writes_max_split [0, 0, 0, 0] [0, 5, 5, 10] [0, 3, 8, 10] 4
    (by decide) (by decide) (by decide) (by decide) (by decide)
    (by
      intro u h1 h2 m hm
      have hm4 : m < 4 := lt_of_le_of_lt hm.le h2
      interval_cases u <;> interval_cases m <;> decide)

theorem bidSumFrom_add (b : List Int) (u : Nat) :
    ∀ a lo c, bidSumFrom b u lo (a + c) = bidSumFrom b u lo a + bidSumFrom b u (lo + a) c := by
  intro a
  induction a with
  | zero => intro lo c; simp [bidSumFrom_zero]
  | succ a ih =>
    intro lo c
    have e : a + 1 + c = (a + c) + 1 := by omega
    have e2 : lo + 1 + a = lo + (a + 1) := by omega
    rw [e, bidSumFrom_succ, bidSumFrom_succ, ih (lo + 1) c, e2]
    omega

/-- Entering the loop of `revenue` at the first set bit from position `i` on,
with running sum `r`, when every later running sum stays inside the `int` range:
the loop ends with `r` plus the bids at all set bits from `i` on. -/
theorem revenueLoop_spec (b : List Int) (u k : Nat) (hk : k ≤ 31) (hu : u < 2 ^ k)
    (hb : ∀ j, u.testBit j = true → j < b.length) :
    ∀ fuel i r, i ≤ k → k - i < fuel →
      (∀ c, c ≤ k - i → INT_MIN ≤ r + bidSumFrom b u i c ∧ r + bidSumFrom b u i c ≤ INT_MAX) →
      ∃ j, nextSetBit u i = some j ∧
        revenueLoop b u fuel j r = some (r + bidSumFrom b u i (k - i)) := by
  intro fuel
  induction fuel with
  | zero => intro i r _ h; omega
  | succ fuel ih =>
    intro i r hik hfuel hrange
    rcases nextSetBit_spec u i (by omega) with ⟨h1, h2⟩ | ⟨j, h1, hij, _, hbit, hlow⟩
    · refine ⟨-1, h1, ?_⟩
      have hz : bidSumFrom b u i (k - i) = 0 := by
        have := bidSumFrom_skip b u (k - i) i 0 (fun j a c => h2 j a (by omega))
        rw [Nat.add_zero, bidSumFrom_zero] at this
        exact this
      rw [hz, add_zero]
      unfold revenueLoop
      rw [if_neg (by decide)]
    · have hjk : j < k := bit_lt_of_lt_two_pow hu hbit
      refine ⟨(j : Int), h1, ?_⟩
      have hone : bidSumFrom b u i ((j - i) + 1) = b.getD j 0 := by
        have e2 : i + (j - i) = j := by omega
        rw [bidSumFrom_skip b u (j - i) i 1 (fun j' a c => hlow j' a (by omega)), e2,
          bidSumFrom_succ, hbit, bidSumFrom_zero]
        simp
      have hsplit : ∀ c, bidSumFrom b u i ((j - i) + 1 + c) =
          b.getD j 0 + bidSumFrom b u (j + 1) c := by
        intro c
        have e3 : i + ((j - i) + 1) = j + 1 := by omega
        rw [bidSumFrom_add b u ((j - i) + 1) i c, hone, e3]
      have hx := hrange ((j - i) + 1) (by omega)
      rw [hone] at hx
      obtain ⟨j', hn, hl⟩ := ih (j + 1) (r + b.getD j 0) (by omega) (by omega) (by
        intro c hc
        have := hrange ((j - i) + 1 + c) (by omega)
        rw [hsplit c] at this
        rw [add_assoc]
        exact this)
      have hsum : bidSumFrom b u i (k - i) =
          b.getD j 0 + bidSumFrom b u (j + 1) (k - (j + 1)) := by
        have e1 : k - i = (j - i) + 1 + (k - (j + 1)) := by omega
        rw [e1, hsplit]
      unfold revenueLoop
      rw [if_pos (Int.natCast_nonneg j), Int.toNat_natCast, getElem?_eq_getD (hb j hbit)]
      simp only
      rw [hn]
      simp only
      rw [wrap32_eq hx.1 hx.2, hl, hsum, add_assoc]

/-- The function `revenue` returns the budget cap or the sum of the bids at the
set bits of `u`, whichever is smaller, provided `u` fits in `k ≤ 31` bits, every
set bit of `u` indexes inside `b`, and the running sums of the loop stay inside
the `int` range. -/
theorem revenue_spec (d : Int) (b : List Int) (u k : Nat) (hk : k ≤ 31) (hu : u < 2 ^ k)
    (hb : ∀ j, u.testBit j = true → j < b.length)
    (hrange : ∀ c, c ≤ k → INT_MIN ≤ bidSum c b u ∧ bidSum c b u ≤ INT_MAX) :
    revenue d b u = some (min (bidSum k b u) d) := by
  obtain ⟨j, h1, h2⟩ := revenueLoop_spec b u k hk hu hb 33 0 0 (Nat.zero_le _) (by omega) (by
    intro c hc
    rw [zero_add, ← bidSum_eq_from]
    exact hrange c (by omega))
  unfold revenue
  rw [h1]
  simp only
  rw [h2]
  simp only [zero_add, Nat.sub_zero, bidSum_eq_from]

/-- C3 (as stated): for the bid array `[2 ^ 31 - 1, 1]` and `u = 3` the sum of
`revenue` leaves the `int` range and `revenue` returns `-2 ^ 31`, not
`min(10, 2 ^ 31) = 10`. -/
theorem revenue_overflow_counterexample :
    revenue 10 [2147483647, 1] 3 = some (-2147483648) ∧
    min 10 (bidSum 2 [2147483647, 1] 3) = 10 := by
  decide

/-- C3 (amended): for every budget cap `d`, every bid array `b` of length
`items ≤ 31` and every non-empty subset `u` in `[1, 2 ^ items)` such that the
running sums of the loop (the sums of `b[j]` over the set bits `j < c` of `u`,
for `c ≤ items`) stay inside the 32-bit `int` range, `revenue d b u` is the
smaller of `d` and the sum of `b[j]` over exactly the bit positions `j` set in
`u`; and this is the value found at `S[u]` after any successful `generate` that
enumerates `u`. -/
theorem revenue_eq_min_bidSum (d : Int) (b : List Int) (items u : Nat)
    (hitems : items ≤ 31) (hb : b.length = items) (hu1 : 1 ≤ u) (hu : u < 2 ^ items)
    (hrange : ∀ c, c ≤ items → INT_MIN ≤ bidSum c b u ∧ bidSum c b u ≤ INT_MAX) :
    revenue d b u = some (min d (bidSum items b u)) ∧
      ∀ S S' n, generate S n d b = some S' → u < n →
        S'[u]? = some (min d (bidSum items b u)) := by
  have hr : revenue d b u = some (min d (bidSum items b u)) := by
    rw [min_comm]
    exact revenue_spec d b u items hitems hu
      (fun j hj => by rw [hb]; exact bit_lt_of_lt_two_pow hu hj) hrange
  refine ⟨hr, ?_⟩
  intro S S' n hg hun
  rw [(generate_entry S S' n d b hg).2.2 u, if_pos ⟨hu1, hun⟩, hr]

theorem revenue_eq_min_bidSum_witness :
    revenue 10 [5, 5] 3 = some (min 10 (bidSum 2 [5, 5] 3)) ∧
      ∀ S S' n, generate S n 10 [5, 5] = some S' → 3 < n →
        S'[3]? = some (min 10 (bidSum 2 [5, 5] 3)) :=
  revenue_eq_min_bidSum 10 [5, 5] 2 3 (by decide) (by decide) (by decide) (by decide)
    (by
      intro c hc
      interval_cases c <;> decide)

theorem bidSum_le_of_le (b : List Int) (hpos : ∀ x ∈ b, 0 ≤ x) (u : Nat) :
    ∀ k c, c ≤ k → bidSum c b u ≤ bidSum k b u := by
  intro k
  induction k with
  | zero =>
    intro c hc
    have : c = 0 := by omega
    rw [this]
  | succ k ih =>
    intro c hc
    rcases Nat.eq_or_lt_of_le hc with rfl | hlt
    · exact le_refl _
    · have h1 := ih c (by omega)
      rw [bidSum_succ]
      have := getD_nonneg b hpos k
      split <;> omega

/-- C10 (as stated): with the non-negative bids `[2 ^ 31 - 1, 1]` and cap `10`,
`revenue` is `10` at `u = 1` and `-2 ^ 31` at its superset `v = 3`: neither
monotone nor constant once the cap is reached. -/
theorem revenue_not_monotone_counterexample :
    Submask 1 3 ∧ revenue 10 [2147483647, 1] 1 = some 10 ∧
    revenue 10 [2147483647, 1] 3 = some (-2147483648) := by
  decide

/-- C10 (amended): for every budget cap `d`, every bid array `b` of length
`items ≤ 31` with non-negative entries, and all subsets `u`, `v` below
`2 ^ items` with `u` a submask of `v`, such that the bids at the set bits of `v`
sum to at most `2 ^ 31 - 1`: `revenue` is defined at both,
`revenue d b u ≤ revenue d b v`, and if `revenue d b u = d` then
`revenue d b v = d`. -/
theorem revenue_monotone (d : Int) (b : List Int) (items u v : Nat)
    (hitems : items ≤ 31) (hb : b.length = items) (hpos : ∀ x ∈ b, 0 ≤ x)
    (huv : Submask u v) (hv : v < 2 ^ items) (hmax : bidSum items b v ≤ INT_MAX) :
    ∃ ru rv, revenue d b u = some ru ∧ revenue d b v = some rv ∧ ru ≤ rv ∧
      (ru = d → rv = d) := by
  have hu : u < 2 ^ items := lt_of_le_of_lt huv.le hv
  have hrv : ∀ c, c ≤ items → INT_MIN ≤ bidSum c b v ∧ bidSum c b v ≤ INT_MAX :=
    fun c hc => ⟨INT_MIN_le_of_nonneg (bidSum_nonneg b hpos v c),
      le_trans (bidSum_le_of_le b hpos v items c hc) hmax⟩
  have hru : ∀ c, c ≤ items → INT_MIN ≤ bidSum c b u ∧ bidSum c b u ≤ INT_MAX :=
    fun c hc => ⟨INT_MIN_le_of_nonneg (bidSum_nonneg b hpos u c),
      le_trans (bidSum_mono b hpos u v huv c) (hrv c hc).2⟩
  have h1 := revenue_spec d b u items hitems hu
    (fun j hj => by rw [hb]; exact bit_lt_of_lt_two_pow hu hj) hru
  have h2 := revenue_spec d b v items hitems hv
    (fun j hj => by rw [hb]; exact bit_lt_of_lt_two_pow hv hj) hrv
  have hm := bidSum_mono b hpos u v huv items
  refine ⟨_, _, h1, h2, min_le_min_right d hm, ?_⟩
  intro h
  have : d ≤ bidSum items b u := by
    rw [← h]; exact min_le_left _ _
  exact min_eq_right (le_trans this hm)

theorem revenue_monotone_witness :
    ∃ ru rv, revenue 6 [5, 3] 1 = some ru ∧ revenue 6 [5, 3] 3 = some rv ∧ ru ≤ rv ∧
      (ru = 6 → rv = 6) :=
  revenue_monotone 6 [5, 3] 2 1 3 (by decide) (by decide) (by decide) (by decide) (by decide)
    (by decide)

/-! ## The submask loop of `merge` with its 32-bit sums -/

/-- The submask loop of `merge` started at a submask `m` of `u` with enough fuel
returns the maximum of the running value `r` and the 32-bit split values at all
submasks of `u` that are at most `m`. -/
theorem mergeLoop_spec (S Sp : List Int) (u : Nat) (hu : u < 2 ^ 32)
    (hS : u < S.length) (hSp : u < Sp.length) :
    ∀ fuel m r, Submask m u → m < fuel →
      ∃ v, mergeLoop S Sp u fuel m r = some v ∧ r ≤ v ∧
        (∀ m', Submask m' u → m' ≤ m → splitValue32 S Sp u m' ≤ v) ∧
        (v = r ∨ ∃ m', Submask m' u ∧ m' ≤ m ∧ v = splitValue32 S Sp u m') := by
  intro fuel
  induction fuel with
  | zero => intro m r _ h; omega
  | succ fuel ih =>
    intro m r hm hfuel
    have hmu := hm.le
    have h1 : S[m]? = some (S.getD m 0) := getElem?_eq_getD (by omega)
    have h2 : Sp[restOf u m]? = some (Sp.getD (restOf u m) 0) :=
      getElem?_eq_getD (by have := restOf_le u m; omega)
    unfold mergeLoop
    rw [h1, h2]
    simp only
    rcases Nat.eq_zero_or_pos m with h0 | hpos
    · subst h0
      rw [subStep_zero hu]
      simp only [if_true]
      refine ⟨_, rfl, le_max_left _ _, ?_, ?_⟩
      · intro m' _ hle
        have : m' = 0 := by omega
        subst this
        exact le_max_right _ _
      · rcases max_choice r (wrap32 (S.getD 0 0 + Sp.getD (restOf u 0) 0)) with h | h
        · exact Or.inl h
        · exact Or.inr ⟨0, hm, le_refl _, h⟩
    · have hs : subStep u m = (m - 1) &&& u := subStep_pos hpos (by omega)
      have hlt : subStep u m < m := by
        rw [hs]
        have : (m - 1) &&& u ≤ m - 1 := Nat.and_le_left
        omega
      have hne : subStep u m ≠ u := by omega
      have hsub : Submask (subStep u m) u := by
        rw [hs]; unfold Submask
        rw [Nat.and_assoc, Nat.and_self]
      rw [if_neg hne]
      obtain ⟨v, hv, hrv, hall, hatt⟩ :=
        ih (subStep u m) (max r (wrap32 (S.getD m 0 + Sp.getD (restOf u m) 0))) hsub (by omega)
      refine ⟨v, hv, le_trans (le_max_left _ _) hrv, ?_, ?_⟩
      · intro m' hm' hle
        rcases Nat.eq_or_lt_of_le hle with rfl | hlt'
        · exact le_trans (le_max_right _ _) hrv
        · apply hall m' hm'
          rw [hs]
          exact le_pred_and m u m' hpos hm hm' hlt'
      · rcases hatt with h | ⟨m', hm', hle, h⟩
        · rcases max_choice r (wrap32 (S.getD m 0 + Sp.getD (restOf u m) 0)) with h' | h'
          · exact Or.inl (h.trans h')
          · exact Or.inr ⟨m, hm, le_refl _, h.trans h'⟩
        · exact Or.inr ⟨m', hm', by omega, h⟩

/-- The value `merge` computes for index `u`: the maximum of `S[u]` and of all
32-bit split values of `u`. -/
theorem mergeEntry_spec (S Sp : List Int) (u : Nat) (hu : u < 2 ^ 32)
    (hS : u < S.length) (hSp : u < Sp.length) :
    ∃ v, mergeEntry S Sp u = some v ∧ S.getD u 0 ≤ v ∧
      (∀ m, Submask m u → splitValue32 S Sp u m ≤ v) ∧
      (v = S.getD u 0 ∨ ∃ m, Submask m u ∧ v = splitValue32 S Sp u m) := by
  obtain ⟨v, hv, h1, h2, h3⟩ :=
    mergeLoop_spec S Sp u hu hS hSp (u + 1) u (S.getD u 0) (submask_refl u) (by omega)
  refine ⟨v, ?_, h1, fun m hm => h2 m hm hm.le, ?_⟩
  · unfold mergeEntry
    rw [getElem?_eq_getD hS]
    exact hv
  · rcases h3 with h | ⟨m, hm, _, h⟩
    · exact Or.inl h
    · exact Or.inr ⟨m, hm, h⟩

/-- The function `merge` succeeds when the bound stays inside the three tables;
it leaves the size of `Sr` unchanged and writes `mergeEntry S Sp u` at every
`u` in `[1, n)` and nothing else. -/
theorem merge_spec (Sr S Sp : List Int) (n : Nat) (hn : n ≤ 2 ^ 32)
    (hS : n ≤ S.length) (hSp : n ≤ Sp.length) (hSr : n ≤ Sr.length) :
    ∃ Sr', merge Sr n S Sp = some Sr' ∧ Sr'.length = Sr.length ∧
      ∀ i, Sr'[i]? = if 1 ≤ i ∧ i < n then mergeEntry S Sp i else Sr[i]? := by
  obtain ⟨T, h1, h2, h3⟩ := foldlM_store (mergeEntry S Sp) (mergeStep S Sp)
    (mergeStep_eq S Sp) (List.range' 1 (n - 1)) Sr (by
      intro u hu
      rw [mem_range'_one] at hu
      obtain ⟨v, hv, _⟩ := mergeEntry_spec S Sp u (by omega) (by omega) (by omega)
      exact ⟨by omega, v, hv⟩)
  refine ⟨T, h1, h2, ?_⟩
  intro i
  rw [h3 i]
  simp only [mem_range'_one]

/-- Every candidate of `merge` with `(S, Sp) = (A, B)` at `u` is a 32-bit split
value of the swapped call, when `B` holds `0` at index 0 and `A[u]` is an `int`. -/
theorem mergeEntry_le_swap (A B : List Int) (u : Nat) (hu : u < 2 ^ 32)
    (hB0 : B.getD 0 0 = 0) (hAu : INT_MIN ≤ A.getD u 0 ∧ A.getD u 0 ≤ INT_MAX) (v w : Int)
    (hv : v = A.getD u 0 ∨ ∃ m, Submask m u ∧ v = splitValue32 A B u m)
    (hw : ∀ m, Submask m u → splitValue32 B A u m ≤ w) : v ≤ w := by
  rcases hv with h | ⟨m, hm, h⟩
  · have := hw 0 ((submask_iff_testBit 0 u).2 (fun i hi => by simp at hi))
    unfold splitValue32 at this
    rw [restOf_zero hu, hB0, zero_add, wrap32_eq hAu.1 hAu.2] at this
    omega
  · have := hw (restOf u m) (restOf_submask u m)
    unfold splitValue32 at this h
    rw [restOf_restOf hu hm, add_comm] at this
    omega

theorem mergeEntry_comm (A B : List Int) (u : Nat) (hu : u < 2 ^ 32)
    (hA : u < A.length) (hB : u < B.length)
    (hA0 : A.getD 0 0 = 0) (hB0 : B.getD 0 0 = 0)
    (hAu : INT_MIN ≤ A.getD u 0 ∧ A.getD u 0 ≤ INT_MAX)
    (hBu : INT_MIN ≤ B.getD u 0 ∧ B.getD u 0 ≤ INT_MAX) :
    mergeEntry A B u = mergeEntry B A u := by
  obtain ⟨v, hv, _, hvall, hvatt⟩ := mergeEntry_spec A B u hu hA hB
  obtain ⟨w, hw, _, hwall, hwatt⟩ := mergeEntry_spec B A u hu hB hA
  rw [hv, hw]
  have h1 := mergeEntry_le_swap A B u hu hB0 hAu v w hvatt hwall
  have h2 := mergeEntry_le_swap B A u hu hA0 hBu w v hwatt hvall
  exact congrArg some (le_antisymm h1 h2)

/-- C8 (as stated): on tables with a negative entry at index 0 the two orders of
`merge` write different tables; so they do on the tables `[0, 2 ^ 31 - 1]` and
`[1, 0]`, where one 32-bit sum wraps around. -/
theorem merge_not_comm_counterexample :
    merge [0, 0] 2 [-5, 0] [0, 10] = some [0, 5] ∧
    merge [0, 0] 2 [0, 10] [-5, 0] = some [0, 10] ∧
    merge [0, 0] 2 [-5, 0] [0, 10] ≠ merge [0, 0] 2 [0, 10] [-5, 0] ∧
    merge [0, 0] 2 [0, 2147483647] [1, 0] = some [0, 2147483647] ∧
    merge [0, 0] 2 [1, 0] [0, 2147483647] = some [0, 0] := by
  decide

/-- C8 (amended): for all tables `A` and `B` of 32-bit `int` entries that hold
`0` at index 0 (as every table of the solver does), and any output buffer `Sr`
and bound `n` inside the tables, `merge` with `(S, Sp) = (A, B)` and with
`(S, Sp) = (B, A)` both succeed and produce the same table, whether or not the
32-bit sums wrap around. -/
theorem merge_comm (Sr A B : List Int) (n : Nat) (hn : n ≤ 2 ^ 32)
    (hA : n ≤ A.length) (hB : n ≤ B.length) (hSr : n ≤ Sr.length)
    (hA0 : A.getD 0 0 = 0) (hB0 : B.getD 0 0 = 0)
    (hAr : ∀ u, u < n → INT_MIN ≤ A.getD u 0 ∧ A.getD u 0 ≤ INT_MAX)
    (hBr : ∀ u, u < n → INT_MIN ≤ B.getD u 0 ∧ B.getD u 0 ≤ INT_MAX) :
    ∃ T, merge Sr n A B = some T ∧ merge Sr n B A = some T := by
  obtain ⟨T1, h1, _, e1⟩ := merge_spec Sr A B n hn hA hB hSr
  obtain ⟨T2, h2, _, e2⟩ := merge_spec Sr B A n hn hB hA hSr
  refine ⟨T1, h1, ?_⟩
  rw [h2]
  congr 1
  apply List.ext_getElem?
  intro i
  rw [e1 i, e2 i]
  split
  · rename_i hi
    exact (mergeEntry_comm A B i (by omega) (by omega) (by omega) hA0 hB0
      (hAr i hi.2) (hBr i hi.2)).symm
  · rfl

theorem merge_comm_witness :
    ∃ T, merge [0, 0, 0, 0] 4 [0, 2147483647, 3, 2147483647] [0, 1, 2147483647, 5] = some T ∧
      merge [0, 0, 0, 0] 4 [0, 1, 2147483647, 5] [0, 2147483647, 3, 2147483647] = some T :=
  merge_comm [0, 0, 0, 0] [0, 2147483647, 3, 2147483647] [0, 1, 2147483647, 5] 4
    (by decide) (by decide) (by decide) (by decide) (by decide) (by decide)
    (by
      intro u hu
      interval_cases u <;> decide)
    (by
      intro u hu
      interval_cases u <;> decide)

theorem filter_range'_skip (u : Nat) :
    ∀ gap lo len, (∀ j, lo ≤ j → j < lo + gap → u.testBit j = false) →
      (List.range' lo (gap + len)).filter (fun j => u.testBit j) =
        (List.range' (lo + gap) len).filter (fun j => u.testBit j) := by
  intro gap
  induction gap with
  | zero => intro lo len _; simp
  | succ gap ih =>
    intro lo len h
    have e : gap + 1 + len = (gap + len) + 1 := by omega
    have e2 : lo + (gap + 1) = lo + 1 + gap := by omega
    rw [e, List.range'_succ, List.filter_cons, h lo (le_refl _) (by omega), e2]
    simp only [Bool.false_eq_true, if_false]
    exact ih (lo + 1) len (fun j a c => h j (by omega) (by omega))

/-- Entering the set-bit loop at the first set bit from position `i` on: the
loop ends, and its body runs at exactly the set bits of `u` in `[i, k)`, in
increasing order. -/
theorem setBitLoop_spec (u k : Nat) (hk : k ≤ 31) (hu : u < 2 ^ k) :
    ∀ fuel i, i ≤ k → k - i < fuel →
      ∃ j, nextSetBit u i = some j ∧
        setBitLoop u fuel j = some ((List.range' i (k - i)).filter (fun j => u.testBit j)) := by
  intro fuel
  induction fuel with
  | zero => intro i _ h; omega
  | succ fuel ih =>
    intro i hik hfuel
    rcases nextSetBit_spec u i (by omega) with ⟨h1, h2⟩ | ⟨j, h1, hij, _, hbit, hlow⟩
    · refine ⟨-1, h1, ?_⟩
      have hz : (List.range' i (k - i)).filter (fun j => u.testBit j) = [] := by
        have := filter_range'_skip u (k - i) i 0 (fun j a c => h2 j a (by omega))
        rw [Nat.add_zero] at this
        rw [this]
        rfl
      rw [hz]
      unfold setBitLoop
      rw [if_neg (by decide)]
    · have hjk : j < k := bit_lt_of_lt_two_pow hu hbit
      refine ⟨(j : Int), h1, ?_⟩
      obtain ⟨j', hn, hl⟩ := ih (j + 1) (by omega) (by omega)
      have hsplit : (List.range' i (k - i)).filter (fun j => u.testBit j) =
          j :: (List.range' (j + 1) (k - (j + 1))).filter (fun j => u.testBit j) := by
        have e1 : k - i = (j - i) + ((k - (j + 1)) + 1) := by omega
        have e2 : i + (j - i) = j := by omega
        rw [e1, filter_range'_skip u (j - i) i _ (fun j' a c => hlow j' a (by omega)), e2,
          List.range'_succ, List.filter_cons, hbit]
        rfl
      unfold setBitLoop
      rw [if_pos (Int.natCast_nonneg j), Int.toNat_natCast, hn]
      simp only
      rw [hl, hsplit]

/-- The loop of `revenue` runs its body `r += b[j]` at exactly the positions the
set-bit loop lists, in that order. -/
theorem revenueLoop_eq_foldlM (b : List Int) (u : Nat) :
    ∀ fuel j l, setBitLoop u fuel j = some l →
      ∀ r, revenueLoop b u fuel j r = l.foldlM (revenueBody b) r := by
  intro fuel
  induction fuel with
  | zero => intro j l h; simp [setBitLoop] at h
  | succ fuel ih =>
    intro j l h r
    unfold setBitLoop at h
    unfold revenueLoop
    by_cases hj : 0 ≤ j
    · rw [if_pos hj] at h
      rw [if_pos hj]
      cases hn : nextSetBit u (j.toNat + 1) with
      | none => rw [hn] at h; simp at h
      | some j' =>
        rw [hn] at h
        simp only at h
        cases hl : setBitLoop u fuel j' with
        | none => rw [hl] at h; simp at h
        | some l' =>
          rw [hl] at h
          simp only [Option.some.injEq] at h
          subst h
          rw [List.foldlM_cons]
          unfold revenueBody
          cases b[j.toNat]? with
          | none => rfl
          | some x => exact ih j' l' hl _
    · rw [if_neg hj] at h
      rw [if_neg hj]
      simp only [Option.some.injEq] at h
      subst h
      rfl

theorem popcount_eq_of_lt {u : Nat} (hu : u < 2 ^ 31) : popcount u = bitCount 31 u := by
  unfold popcount
  rw [bitCount_succ]
  have : u.testBit 31 = false := Nat.testBit_lt_two_pow hu
  rw [this]
  rfl

/-- C16 (as stated): for the word with only bit 31 set the loop of `revenue`
finds bit 31 and then calls `nextSetBit(u, 32)`, whose shift `WORD_MASK << 32`
has no defined value, so `nextSetBit(u, 32)` does not return `-1` and `revenue`
does not return. -/
theorem nextSetBit_shift_by_width :
    nextSetBit (2 ^ 31) 0 = some 31 ∧
    nextSetBit (2 ^ 31) 32 = none ∧
    revenue 5 (List.replicate 32 1) (2 ^ 31) = none := by
  decide

/-- C16 (amended): for every word `u` below `2 ^ 31` (every word the `int` loop
counter of `generate` can hold) the set-bit loop of `revenue` terminates: the
list `l` of positions at which its body runs has exactly `popcount(u)` entries,
is strictly increasing and holds each set bit position of `u` once; the loop of
`revenue` is the body `r += b[j]` run along `l`; every call `nextSetBit(u, j + 1)`
of the loop has `j + 1 ≤ 31`, and `nextSetBit(u, 31)` returns `-1`. -/
theorem set_bit_loop_visits_all (u : Nat) (hu : u < 2 ^ 31) :
    ∃ j0 l, nextSetBit u 0 = some j0 ∧ setBitLoop u 33 j0 = some l ∧
      (∀ b r, revenueLoop b u 33 j0 r = l.foldlM (revenueBody b) r) ∧
      l.length = popcount u ∧ l.Pairwise (fun a c => a < c) ∧
      (∀ j, j ∈ l ↔ u.testBit j = true) ∧ (∀ j, j ∈ l → j + 1 ≤ 31) ∧
      nextSetBit u 31 = some (-1) := by
  obtain ⟨j0, h1, h2⟩ := setBitLoop_spec u 31 (le_refl _) hu 33 0 (Nat.zero_le _) (by omega)
  have hmem : ∀ j, j ∈ (List.range' 0 (31 - 0)).filter (fun j => u.testBit j) ↔
      u.testBit j = true := by
    intro j
    rw [List.mem_filter, List.mem_range'_1]
    constructor
    · exact fun h => h.2
    · intro h
      have := bit_lt_of_lt_two_pow hu h
      exact ⟨⟨Nat.zero_le _, by omega⟩, h⟩
  refine ⟨j0, _, h1, h2, fun b r => revenueLoop_eq_foldlM b u 33 j0 _ h2 r, ?_, ?_, hmem,
    ?_, ?_⟩
  · rw [popcount_eq_of_lt hu]
    unfold bitCount
    rw [List.range_eq_range']
  · apply List.Pairwise.sublist (List.filter_sublist _)
    exact List.pairwise_lt_range' 0 _
  · intro j hj
    have := bit_lt_of_lt_two_pow hu ((hmem j).1 hj)
    omega
  · rcases nextSetBit_spec u 31 (by decide) with ⟨h, _⟩ | ⟨j, _, a, c, hbit, _⟩
    · exact h
    · have := bit_lt_of_lt_two_pow hu hbit
      omega

theorem set_bit_loop_visits_all_witness :
    ∃ j0 l, nextSetBit 5 0 = some j0 ∧ setBitLoop 5 33 j0 = some l ∧
      (∀ b r, revenueLoop b 5 33 j0 r = l.foldlM (revenueBody b) r) ∧
      l.length = popcount 5 ∧ l.Pairwise (fun a c => a < c) ∧
      (∀ j, j ∈ l ↔ (5 : Nat).testBit j = true) ∧ (∀ j, j ∈ l → j + 1 ≤ 31) ∧
      nextSetBit 5 31 = some (-1) :=
  set_bit_loop_visits_all 5 (by decide)

/-! ## Monotone accumulators -/

end fastauction
